import Mathlib

/-!
Verification of the treap / CVM distinct-count estimator library.

The development shallowly embeds the Rust sources:
  * `src/treap_non_random/src/data.rs`       (`Element`)
  * `src/treap_non_random/src/treap_node.rs` (`TreapNode` and its operations)
  * `src/treap_non_random/src/lib.rs`        (`Treap` wrapper)
  * `src/count_unique_cvm/src/lib.rs`        (`CountUnique` estimator)

Conventions of the embedding:
  * `Option<Box<TreapNode>>` children become the `leaf` constructor, so a
    Rust `TreapNode` is a `node` value and an absent child is `leaf`.
  * `Ord::cmp` on a `LinearOrder` is expressed by the equivalent
    trichotomy `if a = b / else if b < a (Greater) / else (Less)`.
  * A Rust `panic!` (and the `unwrap` in `add_token`) is modelled by an
    `Option` result, `none` marking the panic.
  * The estimator's `f32` priorities and random draws are modelled by `ℚ`:
    the code only compares, copies and (in `estimate`, with an exact
    numerator) divides these values, and every non-NaN float is a rational,
    so the `ℚ` model is conservative for the properties proved here.
  * The random source is externalized: each `add_token` call takes the
    draw `u` it would have obtained from `rng.gen::<f32>()` as an argument.
-/

set_option maxHeartbeats 1000000
set_option linter.unusedSectionVars false

/-- Elements stored in the treap: a `value` used for BST placement and
identity, and a `priority` that orders the max-heap
(src/treap_non_random/src/data.rs, `Element<T, P>`). -/
structure Element (T P : Type) where
  value : T
  priority : P
  deriving DecidableEq

/-- A treap node (src/treap_non_random/src/treap_node.rs, `TreapNode<T, P>`):
an element plus exclusively owned optional subtrees.  `leaf` models the
absent child (`None`); a Rust node is always a `node`. -/
inductive TreapNode (T P : Type) where
  | leaf
  | node (element : Element T P) (left : TreapNode T P) (right : TreapNode T P)
  deriving DecidableEq

variable {T P : Type} [LinearOrder T] [LinearOrder P]

/-- `TreapNode::rotate_right`: pull the left child up; no-op when the left
child is absent. -/
def TreapNode.rotate_right : TreapNode T P → TreapNode T P
  | .leaf => .leaf
  | .node e .leaf r => .node e .leaf r
  | .node e (.node le ll lr) r => .node le ll (.node e lr r)

/-- `TreapNode::rotate_left`: pull the right child up; no-op when the right
child is absent. -/
def TreapNode.rotate_left : TreapNode T P → TreapNode T P
  | .leaf => .leaf
  | .node e l .leaf => .node e l .leaf
  | .node e l (.node re rl rr) => .node re (.node e l rl) rr

/-- `TreapNode::heap_check(&self, n)`: the optional child `n` does not
out-prioritize the node whose element is `e`. -/
def TreapNode.heap_check (e : Element T P) : TreapNode T P → Bool
  | .leaf => true
  | .node ne _ _ => decide (ne.priority ≤ e.priority)

/-- `TreapNode::insert_or_replace(&mut self, node)`: returns the updated
tree and the boolean result (`true` iff a new node was inserted).
`left_insert` / `right_insert` are inlined at their unique call sites:
an absent child is replaced by the argument node, a present child recurses.

Note the `Equal` arm is a faithful rendering of
`mem::replace(self, node)`: the whole node — children included — is
replaced by the argument node, after which both (new) children are
heap-checked. -/
def TreapNode.insert_or_replace : TreapNode T P → TreapNode T P → TreapNode T P × Bool
  | .leaf, n => (n, true)
  | .node e l r, .leaf => (.node e l r, false)
  | .node e l r, .node ne nl nr =>
    if e.value = ne.value then
      -- Ordering::Equal
      (if !TreapNode.heap_check ne nl then TreapNode.rotate_right (.node ne nl nr)
       else if !TreapNode.heap_check ne nr then TreapNode.rotate_left (.node ne nl nr)
       else .node ne nl nr, false)
    else if ne.value < e.value then
      -- Ordering::Greater: left_insert, then heap-check the left child
      match l with
      | .leaf =>
        (if TreapNode.heap_check e (.node ne nl nr) then .node e (.node ne nl nr) r
         else TreapNode.rotate_right (.node e (.node ne nl nr) r), true)
      | .node le ll lr =>
        let q := TreapNode.insert_or_replace (.node le ll lr) (.node ne nl nr)
        (if TreapNode.heap_check e q.1 then .node e q.1 r
         else TreapNode.rotate_right (.node e q.1 r), q.2)
    else
      -- Ordering::Less: right_insert, then heap-check the right child
      match r with
      | .leaf =>
        (if TreapNode.heap_check e (.node ne nl nr) then .node e l (.node ne nl nr)
         else TreapNode.rotate_left (.node e l (.node ne nl nr)), true)
      | .node re rl rr =>
        let q := TreapNode.insert_or_replace (.node re rl rr) (.node ne nl nr)
        (if TreapNode.heap_check e q.1 then .node e l q.1
         else TreapNode.rotate_left (.node e l q.1), q.2)

/-- `TreapNode::get(&self, e)`: standard BST descent. -/
def TreapNode.get : TreapNode T P → T → Option (Element T P)
  | .leaf, _ => none
  | .node e l r, x =>
    if e.value = x then some e
    else if x < e.value then l.get x
    else r.get x

/-- `TreapNode::delete_child(&mut self, child)`, expressed on the child
subtree being deleted: the subtree's root is the deletion target; each
step rotates the target toward an absent or lower-priority child and
recurses one level down, until the target is a leaf and is dropped.
The function returns the replacement subtree for the child link. -/
def TreapNode.delete_child : TreapNode T P → TreapNode T P
  | .leaf => .leaf
  | .node _ .leaf .leaf => .leaf
  | .node e .leaf (.node re rl rr) =>
    -- which.rotate_left(); which.delete_child(Left)
    .node re (TreapNode.delete_child (.node e .leaf rl)) rr
  | .node e (.node le ll lr) .leaf =>
    -- which.rotate_right(); which.delete_child(Right)
    .node le ll (TreapNode.delete_child (.node e lr .leaf))
  | .node e (.node le ll lr) (.node re rl rr) =>
    if le.priority < re.priority then
      .node re (TreapNode.delete_child (.node e (.node le ll lr) rl)) rr
    else
      .node le ll (TreapNode.delete_child (.node e lr (.node re rl rr)))

/-- `TreapNode::delete(&mut self, e)`: returns the updated tree and whether
a node was deleted, or `none` for the `panic!` hit when the node's own
value equals the target. -/
def TreapNode.delete : TreapNode T P → T → Option (TreapNode T P × Bool)
  | .leaf, _ => some (.leaf, false)
  | .node el l r, e =>
    if el.value = e then
      none  -- panic!("You don't want to do this, it is bad idea.")
    else if e < el.value then
      -- Ordering::Greater
      match l with
      | .leaf => some (.node el l r, false)
      | .node le ll lr =>
        if le.value = e then
          some (.node el (TreapNode.delete_child (.node le ll lr)) r, true)
        else
          (TreapNode.delete (.node le ll lr) e).map fun q => (.node el q.1 r, q.2)
    else
      -- Ordering::Less
      match r with
      | .leaf => some (.node el l r, false)
      | .node re rl rr =>
        if re.value = e then
          some (.node el l (TreapNode.delete_child (.node re rl rr)), true)
        else
          (TreapNode.delete (.node re rl rr) e).map fun q => (.node el l q.1, q.2)

/-- The `Treap` wrapper (src/treap_non_random/src/lib.rs): optional root
plus the running `size` counter. -/
structure Treap (T P : Type) where
  root : TreapNode T P
  size : Nat
  deriving DecidableEq

/-- `Treap::new()`. -/
def Treap.new : Treap T P := ⟨.leaf, 0⟩

/-- `Treap::reset()`. -/
def Treap.reset (_t : Treap T P) : Treap T P := ⟨.leaf, 0⟩

/-- `Treap::insert(&mut self, element)`: empty tree gets the element as
root (size 1); otherwise `insert_or_replace` on the root, bumping `size`
only when a new node was created. -/
def Treap.insert (t : Treap T P) (element : Element T P) : Treap T P :=
  match t.root with
  | .leaf => ⟨.node element .leaf .leaf, 1⟩
  | .node e l r =>
    let q := TreapNode.insert_or_replace (.node e l r) (.node element .leaf .leaf)
    ⟨q.1, if q.2 then t.size + 1 else t.size⟩

/-- `Treap::get_max()`: the root's element, if any. -/
def Treap.get_max (t : Treap T P) : Option (Element T P) :=
  match t.root with
  | .leaf => none
  | .node e _ _ => some e

/-- `Treap::get(&self, e)`. -/
def Treap.get (t : Treap T P) (e : T) : Option (Element T P) :=
  match t.root with
  | .leaf => none
  | .node el l r => TreapNode.get (.node el l r) e

/-- `Treap::delete(&mut self, e)`: the root is special-cased (rotated away
from the target before the recursive node delete); `none` models the
(internal) panic of `TreapNode::delete`. -/
def Treap.delete (t : Treap T P) (e : T) : Option (Treap T P) :=
  match t.root with
  | .leaf => some t
  | .node el l r =>
    if el.value = e then
      match l, r with
      | .leaf, .leaf => some (Treap.reset t)   -- sole node: full reset, deleted = false
      | .leaf, .node re rl rr =>
        (TreapNode.delete (TreapNode.rotate_left (.node el .leaf (.node re rl rr))) e).map
          fun q => ⟨q.1, if q.2 then t.size - 1 else t.size⟩
      | .node le ll lr, .leaf =>
        (TreapNode.delete (TreapNode.rotate_right (.node el (.node le ll lr) .leaf)) e).map
          fun q => ⟨q.1, if q.2 then t.size - 1 else t.size⟩
      | .node le ll lr, .node re rl rr =>
        if le.priority < re.priority then
          (TreapNode.delete
              (TreapNode.rotate_left (.node el (.node le ll lr) (.node re rl rr))) e).map
            fun q => ⟨q.1, if q.2 then t.size - 1 else t.size⟩
        else
          (TreapNode.delete
              (TreapNode.rotate_right (.node el (.node le ll lr) (.node re rl rr))) e).map
            fun q => ⟨q.1, if q.2 then t.size - 1 else t.size⟩
    else
      (TreapNode.delete (.node el l r) e).map
        fun q => ⟨q.1, if q.2 then t.size - 1 else t.size⟩

/-! ### Semantic observers (not part of the Rust API) -/

/-- The multiset of elements held by a subtree. -/
def TreapNode.elems : TreapNode T P → Multiset (Element T P)
  | .leaf => 0
  | .node e l r => e ::ₘ (l.elems + r.elems)

/-- The multiset of values (keys) held by a subtree. -/
def TreapNode.keys (t : TreapNode T P) : Multiset T :=
  t.elems.map Element.value

/-- The number of nodes reachable from a subtree root. -/
def TreapNode.nodeCount : TreapNode T P → Nat
  | .leaf => 0
  | .node _ l r => 1 + l.nodeCount + r.nodeCount

/-- All elements of the subtree satisfy `f`. -/
def TreapNode.allElems (f : Element T P → Bool) : TreapNode T P → Bool
  | .leaf => true
  | .node e l r => f e && TreapNode.allElems f l && TreapNode.allElems f r

/-- INV-BST: every value in the left subtree is below the node's value and
every value in the right subtree is above it, recursively. -/
def TreapNode.isBST : TreapNode T P → Bool
  | .leaf => true
  | .node e l r =>
    TreapNode.allElems (fun x => decide (x.value < e.value)) l &&
    TreapNode.allElems (fun x => decide (e.value < x.value)) r &&
    l.isBST && r.isBST

/-- INV-HEAP: each node's priority is at least both children's priorities
(this is `TreapNode::maintains_heap` from the source's test support). -/
def TreapNode.isHeap : TreapNode T P → Bool
  | .leaf => true
  | .node e l r =>
    TreapNode.heap_check e l && TreapNode.heap_check e r && l.isHeap && r.isHeap

/-- Treaps reachable from `Treap::new()` through the public mutating API
(`insert`, `delete`, `reset`); a `delete` step requires the call not to
have panicked. -/
inductive Treap.Reachable : Treap T P → Prop where
  | new : Treap.Reachable (Treap.new : Treap T P)
  | insert {t : Treap T P} (e : Element T P) :
      Treap.Reachable t → Treap.Reachable (t.insert e)
  | delete {t t' : Treap T P} (v : T) :
      Treap.Reachable t → t.delete v = some t' → Treap.Reachable t'
  | reset {t : Treap T P} : Treap.Reachable t → Treap.Reachable t.reset

/-! ### The CVM estimator (src/count_unique_cvm/src/lib.rs) -/

/-- `CountUnique<T, R>` state: the reservoir treap, the capacity
`max_size`, and the admission threshold `p`.  The random source is
externalized (each `add_token` receives its draw). -/
structure CountUnique (T : Type) where
  treap : Treap T ℚ
  max_size : Nat
  p : ℚ
  deriving DecidableEq

/-- `CountUnique::new(r, sz)`: `none` models the panic on `sz < 1`. -/
def CountUnique.new {T : Type} [LinearOrder T] (sz : Nat) : Option (CountUnique T) :=
  if sz < 1 then none   -- panic!("Cannot count without state")
  else some ⟨Treap.new, sz, 1⟩

/-- `CountUnique::add_token(&mut self, t)` with its random draw `u`
(`rng.gen::<f32>()`, uniform on [0, 1)) passed explicitly.  `none` marks
a panic (from the internal treap deletes or the `get_max` unwrap). -/
def CountUnique.add_token (s : CountUnique T) (t : T) (u : ℚ) : Option (CountUnique T) :=
  match s.treap.delete t with
  | none => none
  | some tr =>
    if u < s.p then
      if tr.size < s.max_size then
        some ⟨tr.insert ⟨t, u⟩, s.max_size, s.p⟩
      else
        match tr.get_max with
        | none => none  -- the unwrap
        | some m =>
          if m.priority > u then
            some ⟨tr, s.max_size, u⟩
          else
            match tr.delete m.value with
            | none => none
            | some tr2 => some ⟨tr2.insert ⟨t, u⟩, s.max_size, m.priority⟩
    else
      some ⟨tr, s.max_size, s.p⟩

/-- `CountUnique::estimate()`: `size / p`.  `f64::value_from(usize)` is an
exact conversion; it is modelled as succeeding exactly on sizes up to
`2^53` (every such `usize` is exactly representable in an `f64`), and the
division is exact in all uses proved about here (`p = 1`). -/
def CountUnique.estimate (s : CountUnique T) : Option ℚ :=
  if s.treap.size ≤ 2 ^ 53 then some ((s.treap.size : ℚ) / s.p) else none

/-- `CountUnique::reset()`. -/
def CountUnique.reset (s : CountUnique T) : CountUnique T :=
  ⟨s.treap.reset, s.max_size, 1⟩

/-- Run a token/draw stream through the estimator, propagating panics. -/
def CountUnique.run (s : CountUnique T) : List (T × ℚ) → Option (CountUnique T)
  | [] => some s
  | (t, u) :: rest =>
    match s.add_token t u with
    | none => none
    | some s' => s'.run rest

/-- Estimator states reachable from a successful `new` through
`add_token` (with draws in [0, 1), as `rng.gen::<f32>()` produces) and
`reset`. -/
inductive CountUnique.Reachable : CountUnique T → Prop where
  | new {sz : Nat} {s : CountUnique T} :
      CountUnique.new sz = some s → CountUnique.Reachable s
  | add {s s' : CountUnique T} (t : T) (u : ℚ) :
      CountUnique.Reachable s → 0 ≤ u → u < 1 →
      s.add_token t u = some s' → CountUnique.Reachable s'
  | reset {s : CountUnique T} :
      CountUnique.Reachable s → CountUnique.Reachable s.reset

/-! ### Basic lemmas about the observers -/

theorem TreapNode.allElems_iff (f : Element T P → Bool) (t : TreapNode T P) :
    TreapNode.allElems f t = true ↔ ∀ x ∈ t.elems, f x = true := by
  induction t with
  | leaf => simp [TreapNode.allElems, TreapNode.elems]
  | node e l r ihl ihr =>
    simp only [TreapNode.allElems, TreapNode.elems, Bool.and_eq_true, ihl, ihr,
      Multiset.mem_cons, Multiset.mem_add]
    constructor
    · rintro ⟨⟨hf, hl⟩, hr⟩ x (rfl | hx | hx)
      · exact hf
      · exact hl x hx
      · exact hr x hx
    · intro h
      exact ⟨⟨h e (Or.inl rfl), fun x hx => h x (Or.inr (Or.inl hx))⟩,
        fun x hx => h x (Or.inr (Or.inr hx))⟩

theorem TreapNode.isHeap_all {t : TreapNode T P} (ht : t.isHeap = true) :
    ∀ x ∈ t.elems, ∀ e : Element T P,
      TreapNode.heap_check e t = true → x.priority ≤ e.priority := by
  induction t with
  | leaf => simp [TreapNode.elems]
  | node a l r ihl ihr =>
    intro x hx e he
    simp only [TreapNode.isHeap, Bool.and_eq_true] at ht
    obtain ⟨⟨⟨hcl, hcr⟩, hhl⟩, hhr⟩ := ht
    simp only [TreapNode.heap_check, decide_eq_true_eq] at he
    simp only [TreapNode.elems, Multiset.mem_cons, Multiset.mem_add] at hx
    rcases hx with rfl | hx | hx
    · exact he
    · exact le_trans (ihl hhl x hx a hcl) he
    · exact le_trans (ihr hhr x hx a hcr) he

theorem TreapNode.isHeap_root_le {a : Element T P} {l r : TreapNode T P}
    (ht : (TreapNode.node a l r).isHeap = true) :
    ∀ x ∈ (TreapNode.node a l r).elems, x.priority ≤ a.priority := by
  intro x hx
  exact TreapNode.isHeap_all ht x hx a (by simp [TreapNode.heap_check])

theorem TreapNode.nodeCount_eq_card (t : TreapNode T P) :
    t.nodeCount = Multiset.card t.elems := by
  induction t with
  | leaf => rfl
  | node e l r ihl ihr => simp [TreapNode.nodeCount, TreapNode.elems, ihl, ihr]; omega

theorem TreapNode.keys_node (e : Element T P) (l r : TreapNode T P) :
    (TreapNode.node e l r).keys = e.value ::ₘ (l.keys + r.keys) := by
  simp [TreapNode.keys, TreapNode.elems]

theorem TreapNode.mem_keys {t : TreapNode T P} {v : T} :
    v ∈ t.keys ↔ ∃ x ∈ t.elems, x.value = v := by
  simp [TreapNode.keys]

theorem TreapNode.rotate_right_elems (t : TreapNode T P) :
    t.rotate_right.elems = t.elems := by
  match t with
  | .leaf => rfl
  | .node e .leaf r => rfl
  | .node e (.node le ll lr) r =>
    simp only [TreapNode.rotate_right, TreapNode.elems, ← Multiset.singleton_add]
    abel

theorem TreapNode.rotate_left_elems (t : TreapNode T P) :
    t.rotate_left.elems = t.elems := by
  match t with
  | .leaf => rfl
  | .node e l .leaf => rfl
  | .node e l (.node re rl rr) =>
    simp only [TreapNode.rotate_left, TreapNode.elems, ← Multiset.singleton_add]
    abel

theorem TreapNode.rotate_right_isBST {t : TreapNode T P} (h : t.isBST = true) :
    t.rotate_right.isBST = true := by
  match t with
  | .leaf => exact h
  | .node e .leaf r => exact h
  | .node e (.node le ll lr) r =>
    simp only [TreapNode.isBST, TreapNode.rotate_right, Bool.and_eq_true,
      TreapNode.allElems_iff, decide_eq_true_eq] at h ⊢
    obtain ⟨⟨⟨hA, hB⟩, ⟨⟨hC, hD⟩, hE⟩, hF⟩, hG⟩ := h
    have hle : le.value < e.value := hA le (by simp [TreapNode.elems])
    refine ⟨⟨⟨hC, ?_⟩, hE⟩, ⟨⟨?_, hB⟩, hF⟩, hG⟩
    · intro x hx
      simp only [TreapNode.elems, Multiset.mem_cons, Multiset.mem_add] at hx
      rcases hx with rfl | hx | hx
      · exact hle
      · exact hD x hx
      · exact lt_trans hle (hB x hx)
    · intro x hx
      exact hA x (by
        simp only [TreapNode.elems, Multiset.mem_cons, Multiset.mem_add]
        exact Or.inr (Or.inr hx))

theorem TreapNode.rotate_left_isBST {t : TreapNode T P} (h : t.isBST = true) :
    t.rotate_left.isBST = true := by
  match t with
  | .leaf => exact h
  | .node e l .leaf => exact h
  | .node e l (.node re rl rr) =>
    simp only [TreapNode.isBST, TreapNode.rotate_left, Bool.and_eq_true,
      TreapNode.allElems_iff, decide_eq_true_eq] at h ⊢
    obtain ⟨⟨⟨hA, hB⟩, hC⟩, ⟨⟨hD, hE⟩, hF⟩, hG⟩ := h
    have hre : e.value < re.value := hB re (by simp [TreapNode.elems])
    refine ⟨⟨⟨?_, hE⟩, ⟨⟨hA, ?_⟩, hC⟩, hF⟩, hG⟩
    · intro x hx
      simp only [TreapNode.elems, Multiset.mem_cons, Multiset.mem_add] at hx
      rcases hx with rfl | hx | hx
      · exact hre
      · exact lt_trans (hA x hx) hre
      · exact hD x hx
    · intro x hx
      exact hB x (by
        simp only [TreapNode.elems, Multiset.mem_cons, Multiset.mem_add]
        exact Or.inr (Or.inl hx))

theorem TreapNode.heap_check_of_all {c : Element T P} {t : TreapNode T P}
    (h : ∀ x ∈ t.elems, x.priority ≤ c.priority) : TreapNode.heap_check c t = true := by
  cases t with
  | leaf => rfl
  | node e l r =>
    simp only [TreapNode.heap_check, decide_eq_true_eq]
    exact h e (by simp [TreapNode.elems])

/-- `delete_child` removes exactly the root of its argument: the remaining
elements are those of the two subtrees. -/
theorem TreapNode.delete_child_elems (t : TreapNode T P) :
    (TreapNode.delete_child t).elems =
      (match t with | .leaf => (0 : Multiset (Element T P)) | .node _ l r => l.elems + r.elems) := by
  induction t using TreapNode.delete_child.induct with
  | case1 => simp [TreapNode.delete_child, TreapNode.elems]
  | case2 e => simp [TreapNode.delete_child, TreapNode.elems]
  | case3 e re rl rr ih =>
    simp only [TreapNode.delete_child, TreapNode.elems, ih, ← Multiset.singleton_add]
    abel
  | case4 e le ll lr ih =>
    simp only [TreapNode.delete_child, TreapNode.elems, ih, ← Multiset.singleton_add]
    abel
  | case5 e le ll lr re rl rr h ih =>
    simp only [TreapNode.delete_child, if_pos h, TreapNode.elems, ih, ← Multiset.singleton_add]
    abel
  | case6 e le ll lr re rl rr h ih =>
    simp only [TreapNode.delete_child, if_neg h, TreapNode.elems, ih, ← Multiset.singleton_add]
    abel


theorem TreapNode.elems_leaf : (TreapNode.leaf : TreapNode T P).elems = 0 := rfl

theorem TreapNode.mem_elems_node {x e : Element T P} {l r : TreapNode T P} :
    x ∈ (TreapNode.node e l r).elems ↔ x = e ∨ x ∈ l.elems ∨ x ∈ r.elems := by
  simp [TreapNode.elems]

theorem TreapNode.self_mem_elems_node (e : Element T P) (l r : TreapNode T P) :
    e ∈ (TreapNode.node e l r).elems := by
  simp [TreapNode.elems]

/-- Flat characterization of INV-BST at a node. -/
theorem TreapNode.isBST_node_iff {e : Element T P} {l r : TreapNode T P} :
    (TreapNode.node e l r).isBST = true ↔
      (∀ x ∈ l.elems, x.value < e.value) ∧ (∀ x ∈ r.elems, e.value < x.value) ∧
      l.isBST = true ∧ r.isBST = true := by
  simp only [TreapNode.isBST, Bool.and_eq_true, TreapNode.allElems_iff,
    decide_eq_true_eq, and_assoc]

/-- Flat characterization of INV-HEAP at a node. -/
theorem TreapNode.isHeap_node_iff {e : Element T P} {l r : TreapNode T P} :
    (TreapNode.node e l r).isHeap = true ↔
      TreapNode.heap_check e l = true ∧ TreapNode.heap_check e r = true ∧
      l.isHeap = true ∧ r.isHeap = true := by
  simp only [TreapNode.isHeap, Bool.and_eq_true, and_assoc]

theorem TreapNode.delete_child_isBST (t : TreapNode T P) :
    t.isBST = true → (TreapNode.delete_child t).isBST = true := by
  induction t using TreapNode.delete_child.induct with
  | case1 => intro h; simp [TreapNode.delete_child, TreapNode.isBST]
  | case2 e => intro h; simp [TreapNode.delete_child, TreapNode.isBST]
  | case3 e re rl rr ih =>
    intro h
    rw [TreapNode.isBST_node_iff] at h
    obtain ⟨h1, h2, h3, h4⟩ := h
    rw [TreapNode.isBST_node_iff] at h4
    obtain ⟨h41, h42, h43, h44⟩ := h4
    have hinner : (TreapNode.node e .leaf rl).isBST = true := by
      rw [TreapNode.isBST_node_iff]
      exact ⟨fun x hx => by rw [TreapNode.elems_leaf] at hx; simp at hx,
        fun x hx => h2 x (TreapNode.mem_elems_node.mpr (Or.inr (Or.inl hx))),
        rfl, h43⟩
    simp only [TreapNode.delete_child]
    rw [TreapNode.isBST_node_iff]
    refine ⟨?_, h42, ih hinner, h44⟩
    intro x hx
    rw [TreapNode.delete_child_elems] at hx
    simp only [TreapNode.elems_leaf, Multiset.mem_add] at hx
    rcases hx with hx | hx
    · simp at hx
    · exact h41 x hx
  | case4 e le ll lr ih =>
    intro h
    rw [TreapNode.isBST_node_iff] at h
    obtain ⟨h1, h2, h3, h4⟩ := h
    rw [TreapNode.isBST_node_iff] at h3
    obtain ⟨h31, h32, h33, h34⟩ := h3
    have hinner : (TreapNode.node e lr .leaf).isBST = true := by
      rw [TreapNode.isBST_node_iff]
      exact ⟨fun x hx => h1 x (TreapNode.mem_elems_node.mpr (Or.inr (Or.inr hx))),
        fun x hx => by rw [TreapNode.elems_leaf] at hx; simp at hx,
        h34, rfl⟩
    simp only [TreapNode.delete_child]
    rw [TreapNode.isBST_node_iff]
    refine ⟨h31, ?_, h33, ih hinner⟩
    intro x hx
    rw [TreapNode.delete_child_elems] at hx
    simp only [TreapNode.elems_leaf, Multiset.mem_add] at hx
    rcases hx with hx | hx
    · exact h32 x hx
    · simp at hx
  | case5 e le ll lr re rl rr hpr ih =>
    intro h
    rw [TreapNode.isBST_node_iff] at h
    obtain ⟨h1, h2, h3, h4⟩ := h
    rw [TreapNode.isBST_node_iff] at h4
    obtain ⟨h41, h42, h43, h44⟩ := h4
    have hre : e.value < re.value := h2 re (TreapNode.self_mem_elems_node re rl rr)
    have hinner : (TreapNode.node e (.node le ll lr) rl).isBST = true := by
      rw [TreapNode.isBST_node_iff]
      exact ⟨h1, fun x hx => h2 x (TreapNode.mem_elems_node.mpr (Or.inr (Or.inl hx))),
        h3, h43⟩
    simp only [TreapNode.delete_child, if_pos hpr]
    rw [TreapNode.isBST_node_iff]
    refine ⟨?_, h42, ih hinner, h44⟩
    intro x hx
    rw [TreapNode.delete_child_elems] at hx
    simp only [Multiset.mem_add] at hx
    rcases hx with hx | hx
    · exact lt_trans (h1 x hx) hre
    · exact h41 x hx
  | case6 e le ll lr re rl rr hpr ih =>
    intro h
    rw [TreapNode.isBST_node_iff] at h
    obtain ⟨h1, h2, h3, h4⟩ := h
    rw [TreapNode.isBST_node_iff] at h3
    obtain ⟨h31, h32, h33, h34⟩ := h3
    have hle : le.value < e.value := h1 le (TreapNode.self_mem_elems_node le ll lr)
    have hinner : (TreapNode.node e lr (.node re rl rr)).isBST = true := by
      rw [TreapNode.isBST_node_iff]
      exact ⟨fun x hx => h1 x (TreapNode.mem_elems_node.mpr (Or.inr (Or.inr hx))),
        h2, h34, h4⟩
    simp only [TreapNode.delete_child, if_neg hpr]
    rw [TreapNode.isBST_node_iff]
    refine ⟨h31, ?_, h33, ih hinner⟩
    intro x hx
    rw [TreapNode.delete_child_elems] at hx
    simp only [Multiset.mem_add] at hx
    rcases hx with hx | hx
    · exact h32 x hx
    · exact lt_trans hle (h2 x hx)

/-- `delete_child` rebuilds a heap out of the two subtrees of its argument
(the argument's own root — the deletion target — needs no heap relation to
its children). -/
theorem TreapNode.delete_child_isHeap (t : TreapNode T P) :
    (match t with
     | .leaf => True
     | .node _ l r => l.isHeap = true ∧ r.isHeap = true) →
    (TreapNode.delete_child t).isHeap = true := by
  induction t using TreapNode.delete_child.induct with
  | case1 => intro _; simp [TreapNode.delete_child, TreapNode.isHeap]
  | case2 e => intro _; simp [TreapNode.delete_child, TreapNode.isHeap]
  | case3 e re rl rr ih =>
    intro h
    obtain ⟨-, hR⟩ := h
    rw [TreapNode.isHeap_node_iff] at hR
    obtain ⟨hc1, hc2, hh1, hh2⟩ := hR
    simp only [TreapNode.delete_child]
    rw [TreapNode.isHeap_node_iff]
    refine ⟨?_, hc2, ih ⟨rfl, hh1⟩, hh2⟩
    apply TreapNode.heap_check_of_all
    intro x hx
    rw [TreapNode.delete_child_elems] at hx
    simp only [TreapNode.elems_leaf, Multiset.mem_add] at hx
    rcases hx with hx | hx
    · simp at hx
    · exact TreapNode.isHeap_all hh1 x hx re hc1
  | case4 e le ll lr ih =>
    intro h
    obtain ⟨hL, -⟩ := h
    rw [TreapNode.isHeap_node_iff] at hL
    obtain ⟨hc1, hc2, hh1, hh2⟩ := hL
    simp only [TreapNode.delete_child]
    rw [TreapNode.isHeap_node_iff]
    refine ⟨hc1, ?_, hh1, ih ⟨hh2, rfl⟩⟩
    apply TreapNode.heap_check_of_all
    intro x hx
    rw [TreapNode.delete_child_elems] at hx
    simp only [TreapNode.elems_leaf, Multiset.mem_add] at hx
    rcases hx with hx | hx
    · exact TreapNode.isHeap_all hh2 x hx le hc2
    · simp at hx
  | case5 e le ll lr re rl rr hpr ih =>
    intro h
    obtain ⟨hL, hR⟩ := h
    rw [TreapNode.isHeap_node_iff] at hR
    obtain ⟨hc1, hc2, hh1, hh2⟩ := hR
    simp only [TreapNode.delete_child, if_pos hpr]
    rw [TreapNode.isHeap_node_iff]
    refine ⟨?_, hc2, ih ⟨hL, hh1⟩, hh2⟩
    apply TreapNode.heap_check_of_all
    intro x hx
    rw [TreapNode.delete_child_elems] at hx
    simp only [Multiset.mem_add] at hx
    rcases hx with hx | hx
    · exact le_trans (TreapNode.isHeap_root_le hL x hx) (le_of_lt hpr)
    · exact TreapNode.isHeap_all hh1 x hx re hc1
  | case6 e le ll lr re rl rr hpr ih =>
    intro h
    obtain ⟨hL, hR⟩ := h
    rw [TreapNode.isHeap_node_iff] at hL
    obtain ⟨hc1, hc2, hh1, hh2⟩ := hL
    simp only [TreapNode.delete_child, if_neg hpr]
    rw [TreapNode.isHeap_node_iff]
    refine ⟨hc1, ?_, hh1, ih ⟨hh2, hR⟩⟩
    apply TreapNode.heap_check_of_all
    intro x hx
    rw [TreapNode.delete_child_elems] at hx
    simp only [Multiset.mem_add] at hx
    rcases hx with hx | hx
    · exact TreapNode.isHeap_all hh2 x hx le hc2
    · exact le_trans (TreapNode.isHeap_root_le hR x hx) (not_lt.mp hpr)

theorem TreapNode.ins_leaf_unfold (en : Element T P) :
    (TreapNode.insert_or_replace (.leaf : TreapNode T P) (.node en .leaf .leaf)) =
      (.node en .leaf .leaf, true) := by
  rw [TreapNode.insert_or_replace.eq_def]

theorem TreapNode.ins_eq_unfold (e en : Element T P) (l r : TreapNode T P)
    (hev : e.value = en.value) :
    (TreapNode.insert_or_replace (.node e l r) (.node en .leaf .leaf)) =
      (.node en .leaf .leaf, false) := by
  rw [TreapNode.insert_or_replace.eq_def]
  simp [hev, TreapNode.heap_check]

theorem TreapNode.ins_gt_leaf_unfold (e en : Element T P) (r : TreapNode T P)
    (hev : ¬ e.value = en.value) (hlt : en.value < e.value) :
    (TreapNode.insert_or_replace (.node e .leaf r) (.node en .leaf .leaf)) =
      (if TreapNode.heap_check e (.node en .leaf .leaf) then .node e (.node en .leaf .leaf) r
       else TreapNode.rotate_right (.node e (.node en .leaf .leaf) r), true) := by
  rw [TreapNode.insert_or_replace.eq_def]
  simp only [hev, hlt, if_false, if_true, ite_false, ite_true]

theorem TreapNode.ins_gt_node_unfold (e en le : Element T P) (ll lr r : TreapNode T P)
    (hev : ¬ e.value = en.value) (hlt : en.value < e.value) :
    (TreapNode.insert_or_replace (.node e (.node le ll lr) r) (.node en .leaf .leaf)) =
      ((if TreapNode.heap_check e
            (TreapNode.insert_or_replace (.node le ll lr) (.node en .leaf .leaf)).1
        then .node e (TreapNode.insert_or_replace (.node le ll lr) (.node en .leaf .leaf)).1 r
        else TreapNode.rotate_right
          (.node e (TreapNode.insert_or_replace (.node le ll lr) (.node en .leaf .leaf)).1 r)),
       (TreapNode.insert_or_replace (.node le ll lr) (.node en .leaf .leaf)).2) := by
  rw [TreapNode.insert_or_replace.eq_def]
  simp only [hev, hlt, if_false, if_true, ite_false, ite_true]

theorem TreapNode.ins_lt_leaf_unfold (e en : Element T P) (l : TreapNode T P)
    (hev : ¬ e.value = en.value) (hlt : ¬ en.value < e.value) :
    (TreapNode.insert_or_replace (.node e l .leaf) (.node en .leaf .leaf)) =
      (if TreapNode.heap_check e (.node en .leaf .leaf) then .node e l (.node en .leaf .leaf)
       else TreapNode.rotate_left (.node e l (.node en .leaf .leaf)), true) := by
  rw [TreapNode.insert_or_replace.eq_def]
  simp only [hev, hlt, if_false, if_true, ite_false, ite_true]

theorem TreapNode.ins_lt_node_unfold (e en re : Element T P) (l rl rr : TreapNode T P)
    (hev : ¬ e.value = en.value) (hlt : ¬ en.value < e.value) :
    (TreapNode.insert_or_replace (.node e l (.node re rl rr)) (.node en .leaf .leaf)) =
      ((if TreapNode.heap_check e
            (TreapNode.insert_or_replace (.node re rl rr) (.node en .leaf .leaf)).1
        then .node e l (TreapNode.insert_or_replace (.node re rl rr) (.node en .leaf .leaf)).1
        else TreapNode.rotate_left
          (.node e l (TreapNode.insert_or_replace (.node re rl rr) (.node en .leaf .leaf)).1)),
       (TreapNode.insert_or_replace (.node re rl rr) (.node en .leaf .leaf)).2) := by
  rw [TreapNode.insert_or_replace.eq_def]
  simp only [hev, hlt, if_false, if_true, ite_false, ite_true]

theorem TreapNode.elems_cons_swap_left (a b : Element T P) (s u : Multiset (Element T P)) :
    a ::ₘ ((b ::ₘ s) + u) = b ::ₘ (a ::ₘ (s + u)) := by
  simp only [← Multiset.singleton_add]
  abel

theorem TreapNode.elems_cons_swap_right (a b : Element T P) (s u : Multiset (Element T P)) :
    a ::ₘ (s + (b ::ₘ u)) = b ::ₘ (a ::ₘ (s + u)) := by
  simp only [← Multiset.singleton_add]
  abel

/-- Master specification of `insert_or_replace` for a freshly created
argument node (the only shape the `Treap` wrapper ever passes):
element containment, exact growth when a node was created, creation when
the value is absent, and preservation of both invariants. -/
theorem TreapNode.insert_spec (t : TreapNode T P) (en : Element T P) :
    (TreapNode.insert_or_replace t (.node en .leaf .leaf)).1.elems ≤ en ::ₘ t.elems ∧
    ((TreapNode.insert_or_replace t (.node en .leaf .leaf)).2 = true →
      (TreapNode.insert_or_replace t (.node en .leaf .leaf)).1.elems = en ::ₘ t.elems) ∧
    (en.value ∉ t.keys → (TreapNode.insert_or_replace t (.node en .leaf .leaf)).2 = true) ∧
    (t.isBST = true → (TreapNode.insert_or_replace t (.node en .leaf .leaf)).1.isBST = true) ∧
    (t.isHeap = true → (TreapNode.insert_or_replace t (.node en .leaf .leaf)).1.isHeap = true) := by
  induction t with
  | leaf =>
    rw [TreapNode.ins_leaf_unfold]
    refine ⟨?_, ?_, ?_, ?_, ?_⟩
    · show (TreapNode.node en .leaf .leaf).elems ≤ en ::ₘ (TreapNode.leaf : TreapNode T P).elems
      simp [TreapNode.elems]
    · intro _
      show (TreapNode.node en .leaf .leaf).elems = en ::ₘ (TreapNode.leaf : TreapNode T P).elems
      simp [TreapNode.elems]
    · intro _; rfl
    · intro _
      show (TreapNode.node en .leaf .leaf).isBST = true
      rw [TreapNode.isBST_node_iff]
      exact ⟨fun x hx => by simp [TreapNode.elems_leaf] at hx,
        fun x hx => by simp [TreapNode.elems_leaf] at hx, rfl, rfl⟩
    · intro _
      show (TreapNode.node en .leaf .leaf).isHeap = true
      rw [TreapNode.isHeap_node_iff]
      exact ⟨rfl, rfl, rfl, rfl⟩
  | node e l r ihl ihr =>
    by_cases hev : e.value = en.value
    · rw [TreapNode.ins_eq_unfold e en l r hev]
      refine ⟨?_, ?_, ?_, ?_, ?_⟩
      · show (TreapNode.node en .leaf .leaf).elems ≤ en ::ₘ (TreapNode.node e l r).elems
        simp only [TreapNode.elems]
        exact Multiset.cons_le_cons en (by simp)
      · intro hfalse
        exact absurd hfalse (by simp)
      · intro habs
        exact absurd (TreapNode.mem_keys.mpr ⟨e, TreapNode.self_mem_elems_node e l r, hev⟩)
          habs
      · intro _
        show (TreapNode.node en .leaf .leaf).isBST = true
        rw [TreapNode.isBST_node_iff]
        exact ⟨fun x hx => by simp [TreapNode.elems_leaf] at hx,
          fun x hx => by simp [TreapNode.elems_leaf] at hx, rfl, rfl⟩
      · intro _
        show (TreapNode.node en .leaf .leaf).isHeap = true
        rw [TreapNode.isHeap_node_iff]
        exact ⟨rfl, rfl, rfl, rfl⟩
    · by_cases hlt : en.value < e.value
      · -- Ordering::Greater: descend left
        cases l with
        | leaf =>
          rw [TreapNode.ins_gt_leaf_unfold e en r hev hlt]
          have hEq : ∀ c : Prop, ∀ h : Decidable c,
              (if c then TreapNode.node e (.node en .leaf .leaf) r
               else TreapNode.rotate_right (.node e (.node en .leaf .leaf) r)).elems
                = en ::ₘ (TreapNode.node e .leaf r).elems := by
            intro c h
            rcases h with h | h
            · simp only [if_neg h, TreapNode.rotate_right_elems]
              simp only [TreapNode.elems, ← Multiset.singleton_add]
              abel
            · simp only [if_pos h]
              simp only [TreapNode.elems, ← Multiset.singleton_add]
              abel
          refine ⟨le_of_eq (hEq _ _), fun _ => hEq _ _, fun _ => rfl, ?_, ?_⟩
          · intro hb
            obtain ⟨hb1, hb2, hb3, hb4⟩ := TreapNode.isBST_node_iff.mp hb
            have hmain : (TreapNode.node e (.node en .leaf .leaf) r).isBST = true := by
              rw [TreapNode.isBST_node_iff]
              refine ⟨?_, hb2, ?_, hb4⟩
              · intro x hx
                rcases TreapNode.mem_elems_node.mp hx with rfl | hx | hx
                · exact hlt
                · simp [TreapNode.elems_leaf] at hx
                · simp [TreapNode.elems_leaf] at hx
              · rw [TreapNode.isBST_node_iff]
                exact ⟨fun x hx => by simp [TreapNode.elems_leaf] at hx,
                  fun x hx => by simp [TreapNode.elems_leaf] at hx, rfl, rfl⟩
            by_cases hc : TreapNode.heap_check e (TreapNode.node en .leaf .leaf) = true
            · rw [if_pos hc]; exact hmain
            · rw [if_neg hc]; exact TreapNode.rotate_right_isBST hmain
          · intro hh
            obtain ⟨hh1, hh2, hh3, hh4⟩ := TreapNode.isHeap_node_iff.mp hh
            by_cases hc : TreapNode.heap_check e (TreapNode.node en .leaf .leaf) = true
            · rw [if_pos hc]
              rw [TreapNode.isHeap_node_iff]
              refine ⟨hc, hh2, ?_, hh4⟩
              rw [TreapNode.isHeap_node_iff]
              exact ⟨rfl, rfl, rfl, rfl⟩
            · rw [if_neg hc]
              have hgtp : e.priority < en.priority := by
                simp only [TreapNode.heap_check, decide_eq_true_eq] at hc
                exact not_le.mp hc
              show (TreapNode.node en .leaf (TreapNode.node e .leaf r)).isHeap = true
              rw [TreapNode.isHeap_node_iff]
              refine ⟨rfl, ?_, rfl, ?_⟩
              · simp [TreapNode.heap_check, le_of_lt hgtp]
              · rw [TreapNode.isHeap_node_iff]
                exact ⟨rfl, hh2, rfl, hh4⟩
        | node le ll lr =>
          rw [TreapNode.ins_gt_node_unfold e en le ll lr r hev hlt]
          obtain ⟨ih1, ih2, ih3, ih4, ih5⟩ := ihl
          have hEq : (if TreapNode.heap_check e
                (TreapNode.insert_or_replace (.node le ll lr) (.node en .leaf .leaf)).1
              then TreapNode.node e
                (TreapNode.insert_or_replace (.node le ll lr) (.node en .leaf .leaf)).1 r
              else TreapNode.rotate_right (TreapNode.node e
                (TreapNode.insert_or_replace (.node le ll lr) (.node en .leaf .leaf)).1 r)).elems
                = e ::ₘ ((TreapNode.insert_or_replace (.node le ll lr)
                    (.node en .leaf .leaf)).1.elems + r.elems) := by
            by_cases hc : TreapNode.heap_check e
                (TreapNode.insert_or_replace (.node le ll lr) (.node en .leaf .leaf)).1 = true
            · rw [if_pos hc]
              rfl
            · rw [if_neg hc, TreapNode.rotate_right_elems]
              rfl
          refine ⟨?_, ?_, ?_, ?_, ?_⟩
          · dsimp only
            rw [hEq]
            calc e ::ₘ ((TreapNode.insert_or_replace (.node le ll lr)
                    (.node en .leaf .leaf)).1.elems + r.elems)
                ≤ e ::ₘ ((en ::ₘ (TreapNode.node le ll lr).elems) + r.elems) :=
                  Multiset.cons_le_cons e (add_le_add_right ih1 _)
              _ = en ::ₘ (TreapNode.node e (.node le ll lr) r).elems := by
                  rw [TreapNode.elems_cons_swap_left]
                  rfl
          · intro hb2'
            dsimp only
            rw [hEq, ih2 hb2', TreapNode.elems_cons_swap_left]
            rfl
          · intro habs
            show (TreapNode.insert_or_replace (.node le ll lr) (.node en .leaf .leaf)).2 = true
            apply ih3
            intro hk
            apply habs
            rw [TreapNode.keys_node]
            exact Multiset.mem_cons_of_mem (Multiset.mem_add.mpr (Or.inl hk))
          · intro hb
            obtain ⟨hb1, hb2, hb3, hb4⟩ := TreapNode.isBST_node_iff.mp hb
            have hq1b := ih4 hb3
            have hmain : (TreapNode.node e
                (TreapNode.insert_or_replace (.node le ll lr) (.node en .leaf .leaf)).1 r).isBST
                  = true := by
              rw [TreapNode.isBST_node_iff]
              refine ⟨?_, hb2, hq1b, hb4⟩
              intro x hx
              rcases Multiset.mem_cons.mp (Multiset.mem_of_le ih1 hx) with rfl | hxl
              · exact hlt
              · exact hb1 x hxl
            by_cases hc : TreapNode.heap_check e
                (TreapNode.insert_or_replace (.node le ll lr) (.node en .leaf .leaf)).1 = true
            · rw [if_pos hc]; exact hmain
            · rw [if_neg hc]; exact TreapNode.rotate_right_isBST hmain
          · intro hh
            obtain ⟨hh1, hh2, hh3, hh4⟩ := TreapNode.isHeap_node_iff.mp hh
            have hq1h := ih5 hh3
            by_cases hc : TreapNode.heap_check e
                (TreapNode.insert_or_replace (.node le ll lr) (.node en .leaf .leaf)).1 = true
            · rw [if_pos hc]
              rw [TreapNode.isHeap_node_iff]
              exact ⟨hc, hh2, hq1h, hh4⟩
            · rw [if_neg hc]
              cases hq1 : (TreapNode.insert_or_replace (.node le ll lr)
                  (.node en .leaf .leaf)).1 with
              | leaf =>
                rw [hq1] at hc
                exact absurd rfl hc
              | node qe ql qr =>
                rw [hq1] at hc hq1h ih1
                have hgtp : e.priority < qe.priority := by
                  simp only [TreapNode.heap_check, decide_eq_true_eq] at hc
                  exact not_le.mp hc
                have hqe : qe = en := by
                  rcases Multiset.mem_cons.mp
                      (Multiset.mem_of_le ih1 (TreapNode.self_mem_elems_node qe ql qr)) with
                    h | h
                  · exact h
                  · exact absurd (TreapNode.isHeap_all hh3 qe h e hh1) (not_le.mpr hgtp)
                have hsub : ql.elems + qr.elems ≤ (TreapNode.node le ll lr).elems := by
                  have h1 := ih1
                  rw [show (TreapNode.node qe ql qr).elems
                      = qe ::ₘ (ql.elems + qr.elems) from rfl, hqe] at h1
                  exact (Multiset.cons_le_cons_iff en).mp h1
                obtain ⟨hq1c1, hq1c2, hq1hl, hq1hr⟩ := TreapNode.isHeap_node_iff.mp hq1h
                show (TreapNode.node qe ql (TreapNode.node e qr r)).isHeap = true
                rw [TreapNode.isHeap_node_iff]
                refine ⟨hq1c1, ?_, hq1hl, ?_⟩
                · simp [TreapNode.heap_check, le_of_lt hgtp]
                · rw [TreapNode.isHeap_node_iff]
                  refine ⟨?_, hh2, hq1hr, hh4⟩
                  apply TreapNode.heap_check_of_all
                  intro x hx
                  exact TreapNode.isHeap_all hh3 x
                    (Multiset.mem_of_le hsub (Multiset.mem_add.mpr (Or.inr hx))) e hh1
      · -- Ordering::Less: descend right
        have hgt : e.value < en.value :=
          lt_of_le_of_ne (not_lt.mp hlt) (fun h => hev h)
        cases r with
        | leaf =>
          rw [TreapNode.ins_lt_leaf_unfold e en l hev hlt]
          have hEq : ∀ c : Prop, ∀ h : Decidable c,
              (if c then TreapNode.node e l (.node en .leaf .leaf)
               else TreapNode.rotate_left (.node e l (.node en .leaf .leaf))).elems
                = en ::ₘ (TreapNode.node e l .leaf).elems := by
            intro c h
            rcases h with h | h
            · simp only [if_neg h, TreapNode.rotate_left_elems]
              simp only [TreapNode.elems, ← Multiset.singleton_add]
              abel
            · simp only [if_pos h]
              simp only [TreapNode.elems, ← Multiset.singleton_add]
              abel
          refine ⟨le_of_eq (hEq _ _), fun _ => hEq _ _, fun _ => rfl, ?_, ?_⟩
          · intro hb
            obtain ⟨hb1, hb2, hb3, hb4⟩ := TreapNode.isBST_node_iff.mp hb
            have hmain : (TreapNode.node e l (.node en .leaf .leaf)).isBST = true := by
              rw [TreapNode.isBST_node_iff]
              refine ⟨hb1, ?_, hb3, ?_⟩
              · intro x hx
                rcases TreapNode.mem_elems_node.mp hx with rfl | hx | hx
                · exact hgt
                · simp [TreapNode.elems_leaf] at hx
                · simp [TreapNode.elems_leaf] at hx
              · rw [TreapNode.isBST_node_iff]
                exact ⟨fun x hx => by simp [TreapNode.elems_leaf] at hx,
                  fun x hx => by simp [TreapNode.elems_leaf] at hx, rfl, rfl⟩
            by_cases hc : TreapNode.heap_check e (TreapNode.node en .leaf .leaf) = true
            · rw [if_pos hc]; exact hmain
            · rw [if_neg hc]; exact TreapNode.rotate_left_isBST hmain
          · intro hh
            obtain ⟨hh1, hh2, hh3, hh4⟩ := TreapNode.isHeap_node_iff.mp hh
            by_cases hc : TreapNode.heap_check e (TreapNode.node en .leaf .leaf) = true
            · rw [if_pos hc]
              rw [TreapNode.isHeap_node_iff]
              refine ⟨hh1, hc, hh3, ?_⟩
              rw [TreapNode.isHeap_node_iff]
              exact ⟨rfl, rfl, rfl, rfl⟩
            · rw [if_neg hc]
              have hgtp : e.priority < en.priority := by
                simp only [TreapNode.heap_check, decide_eq_true_eq] at hc
                exact not_le.mp hc
              show (TreapNode.node en (TreapNode.node e l .leaf) .leaf).isHeap = true
              rw [TreapNode.isHeap_node_iff]
              refine ⟨?_, rfl, ?_, rfl⟩
              · simp [TreapNode.heap_check, le_of_lt hgtp]
              · rw [TreapNode.isHeap_node_iff]
                exact ⟨hh1, rfl, hh3, rfl⟩
        | node re rl rr =>
          rw [TreapNode.ins_lt_node_unfold e en re l rl rr hev hlt]
          obtain ⟨ih1, ih2, ih3, ih4, ih5⟩ := ihr
          have hEq : (if TreapNode.heap_check e
                (TreapNode.insert_or_replace (.node re rl rr) (.node en .leaf .leaf)).1
              then TreapNode.node e l
                (TreapNode.insert_or_replace (.node re rl rr) (.node en .leaf .leaf)).1
              else TreapNode.rotate_left (TreapNode.node e l
                (TreapNode.insert_or_replace (.node re rl rr) (.node en .leaf .leaf)).1)).elems
                = e ::ₘ (l.elems + (TreapNode.insert_or_replace (.node re rl rr)
                    (.node en .leaf .leaf)).1.elems) := by
            by_cases hc : TreapNode.heap_check e
                (TreapNode.insert_or_replace (.node re rl rr) (.node en .leaf .leaf)).1 = true
            · rw [if_pos hc]
              rfl
            · rw [if_neg hc, TreapNode.rotate_left_elems]
              rfl
          refine ⟨?_, ?_, ?_, ?_, ?_⟩
          · dsimp only
            rw [hEq]
            calc e ::ₘ (l.elems + (TreapNode.insert_or_replace (.node re rl rr)
                    (.node en .leaf .leaf)).1.elems)
                ≤ e ::ₘ (l.elems + (en ::ₘ (TreapNode.node re rl rr).elems)) :=
                  Multiset.cons_le_cons e (add_le_add_left ih1 _)
              _ = en ::ₘ (TreapNode.node e l (.node re rl rr)).elems := by
                  rw [TreapNode.elems_cons_swap_right]
                  rfl
          · intro hb2'
            dsimp only
            rw [hEq, ih2 hb2', TreapNode.elems_cons_swap_right]
            rfl
          · intro habs
            show (TreapNode.insert_or_replace (.node re rl rr) (.node en .leaf .leaf)).2 = true
            apply ih3
            intro hk
            apply habs
            rw [TreapNode.keys_node]
            exact Multiset.mem_cons_of_mem (Multiset.mem_add.mpr (Or.inr hk))
          · intro hb
            obtain ⟨hb1, hb2, hb3, hb4⟩ := TreapNode.isBST_node_iff.mp hb
            have hq1b := ih4 hb4
            have hmain : (TreapNode.node e l
                (TreapNode.insert_or_replace (.node re rl rr) (.node en .leaf .leaf)).1).isBST
                  = true := by
              rw [TreapNode.isBST_node_iff]
              refine ⟨hb1, ?_, hb3, hq1b⟩
              intro x hx
              rcases Multiset.mem_cons.mp (Multiset.mem_of_le ih1 hx) with rfl | hxr
              · exact hgt
              · exact hb2 x hxr
            by_cases hc : TreapNode.heap_check e
                (TreapNode.insert_or_replace (.node re rl rr) (.node en .leaf .leaf)).1 = true
            · rw [if_pos hc]; exact hmain
            · rw [if_neg hc]; exact TreapNode.rotate_left_isBST hmain
          · intro hh
            obtain ⟨hh1, hh2, hh3, hh4⟩ := TreapNode.isHeap_node_iff.mp hh
            have hq1h := ih5 hh4
            by_cases hc : TreapNode.heap_check e
                (TreapNode.insert_or_replace (.node re rl rr) (.node en .leaf .leaf)).1 = true
            · rw [if_pos hc]
              rw [TreapNode.isHeap_node_iff]
              exact ⟨hh1, hc, hh3, hq1h⟩
            · rw [if_neg hc]
              cases hq1 : (TreapNode.insert_or_replace (.node re rl rr)
                  (.node en .leaf .leaf)).1 with
              | leaf =>
                rw [hq1] at hc
                exact absurd rfl hc
              | node qe ql qr =>
                rw [hq1] at hc hq1h ih1
                have hgtp : e.priority < qe.priority := by
                  simp only [TreapNode.heap_check, decide_eq_true_eq] at hc
                  exact not_le.mp hc
                have hqe : qe = en := by
                  rcases Multiset.mem_cons.mp
                      (Multiset.mem_of_le ih1 (TreapNode.self_mem_elems_node qe ql qr)) with
                    h | h
                  · exact h
                  · exact absurd (TreapNode.isHeap_all hh4 qe h e hh2) (not_le.mpr hgtp)
                have hsub : ql.elems + qr.elems ≤ (TreapNode.node re rl rr).elems := by
                  have h1 := ih1
                  rw [show (TreapNode.node qe ql qr).elems
                      = qe ::ₘ (ql.elems + qr.elems) from rfl, hqe] at h1
                  exact (Multiset.cons_le_cons_iff en).mp h1
                obtain ⟨hq1c1, hq1c2, hq1hl, hq1hr⟩ := TreapNode.isHeap_node_iff.mp hq1h
                show (TreapNode.node qe (TreapNode.node e l ql) qr).isHeap = true
                rw [TreapNode.isHeap_node_iff]
                refine ⟨?_, hq1c2, ?_, hq1hr⟩
                · simp [TreapNode.heap_check, le_of_lt hgtp]
                · rw [TreapNode.isHeap_node_iff]
                  refine ⟨hh1, ?_, hh3, hq1hl⟩
                  apply TreapNode.heap_check_of_all
                  intro x hx
                  exact TreapNode.isHeap_all hh4 x
                    (Multiset.mem_of_le hsub (Multiset.mem_add.mpr (Or.inl hx))) e hh2

theorem TreapNode.del_leaf_unfold (v : T) :
    TreapNode.delete (.leaf : TreapNode T P) v = some (.leaf, false) := rfl

theorem TreapNode.del_gt_leaf_unfold (el : Element T P) (r : TreapNode T P) (v : T)
    (hne : ¬ el.value = v) (hvl : v < el.value) :
    TreapNode.delete (.node el .leaf r) v = some (.node el .leaf r, false) := by
  rw [TreapNode.delete.eq_def]
  simp only [hne, hvl, if_false, if_true, ite_false, ite_true]

theorem TreapNode.del_gt_found_unfold (el le : Element T P) (ll lr r : TreapNode T P) (v : T)
    (hne : ¬ el.value = v) (hvl : v < el.value) (hfound : le.value = v) :
    TreapNode.delete (.node el (.node le ll lr) r) v =
      some (.node el (TreapNode.delete_child (.node le ll lr)) r, true) := by
  rw [TreapNode.delete.eq_def]
  simp only [hne, hvl, hfound, if_false, if_true, ite_false, ite_true]

theorem TreapNode.del_gt_rec_unfold (el le : Element T P) (ll lr r : TreapNode T P) (v : T)
    (hne : ¬ el.value = v) (hvl : v < el.value) (hmiss : ¬ le.value = v) :
    TreapNode.delete (.node el (.node le ll lr) r) v =
      (TreapNode.delete (.node le ll lr) v).map fun q => (.node el q.1 r, q.2) := by
  rw [TreapNode.delete.eq_def]
  simp only [hne, hvl, hmiss, if_false, if_true, ite_false, ite_true]

theorem TreapNode.del_lt_leaf_unfold (el : Element T P) (l : TreapNode T P) (v : T)
    (hne : ¬ el.value = v) (hvl : ¬ v < el.value) :
    TreapNode.delete (.node el l .leaf) v = some (.node el l .leaf, false) := by
  rw [TreapNode.delete.eq_def]
  simp only [hne, hvl, if_false, if_true, ite_false, ite_true]

theorem TreapNode.del_lt_found_unfold (el re : Element T P) (l rl rr : TreapNode T P) (v : T)
    (hne : ¬ el.value = v) (hvl : ¬ v < el.value) (hfound : re.value = v) :
    TreapNode.delete (.node el l (.node re rl rr)) v =
      some (.node el l (TreapNode.delete_child (.node re rl rr)), true) := by
  rw [TreapNode.delete.eq_def]
  simp only [hne, hvl, hfound, if_false, if_true, ite_false, ite_true]

theorem TreapNode.del_lt_rec_unfold (el re : Element T P) (l rl rr : TreapNode T P) (v : T)
    (hne : ¬ el.value = v) (hvl : ¬ v < el.value) (hmiss : ¬ re.value = v) :
    TreapNode.delete (.node el l (.node re rl rr)) v =
      (TreapNode.delete (.node re rl rr) v).map fun q => (.node el l q.1, q.2) := by
  rw [TreapNode.delete.eq_def]
  simp only [hne, hvl, hmiss, if_false, if_true, ite_false, ite_true]

/-- INV-BST implies all stored values are distinct. -/
theorem TreapNode.isBST_keys_nodup {t : TreapNode T P} (hb : t.isBST = true) :
    t.keys.Nodup := by
  induction t with
  | leaf => simp [TreapNode.keys, TreapNode.elems]
  | node e l r ihl ihr =>
    obtain ⟨h1, h2, h3, h4⟩ := TreapNode.isBST_node_iff.mp hb
    rw [TreapNode.keys_node]
    rw [Multiset.nodup_cons]
    constructor
    · intro hmem
      rcases Multiset.mem_add.mp hmem with hk | hk
      · obtain ⟨x, hx, hxv⟩ := TreapNode.mem_keys.mp hk
        exact absurd (hxv ▸ h1 x hx) (lt_irrefl e.value)
      · obtain ⟨x, hx, hxv⟩ := TreapNode.mem_keys.mp hk
        exact absurd (hxv ▸ h2 x hx) (lt_irrefl e.value)
    · rw [Multiset.nodup_add]
      refine ⟨ihl h3, ihr h4, ?_⟩
      rw [Multiset.disjoint_left]
      intro k hkl hkr
      obtain ⟨x, hx, hxv⟩ := TreapNode.mem_keys.mp hkl
      obtain ⟨y, hy, hyv⟩ := TreapNode.mem_keys.mp hkr
      have hlt1 : k < e.value := hxv ▸ h1 x hx
      have hlt2 : e.value < k := hyv ▸ h2 y hy
      exact absurd (lt_trans hlt1 hlt2) (lt_irrefl k)

/-- Specification of the recursive node delete when the root's own value
is not the target: no panic, invariants preserved, and the element with
the target value (if any) is removed, exactly once. -/
theorem TreapNode.delete_spec (t : TreapNode T P) (v : T) :
    t.isBST = true → t.isHeap = true →
    (match t with | .leaf => True | .node el _ _ => el.value ≠ v) →
    ∃ q : TreapNode T P × Bool, TreapNode.delete t v = some q ∧
      q.1.isBST = true ∧ q.1.isHeap = true ∧
      (q.2 = false → q.1 = t ∧ v ∉ t.keys) ∧
      (q.2 = true → ∃ x : Element T P, x.value = v ∧ t.elems = x ::ₘ q.1.elems) := by
  induction t with
  | leaf =>
    intro hb hh _
    refine ⟨(.leaf, false), TreapNode.del_leaf_unfold v, rfl, rfl, ?_, ?_⟩
    · intro _
      exact ⟨rfl, by simp [TreapNode.keys, TreapNode.elems]⟩
    · intro hfalse
      exact absurd hfalse (by simp)
  | node el l r ihl ihr =>
    intro hb hh hne
    obtain ⟨hb1, hb2, hb3, hb4⟩ := TreapNode.isBST_node_iff.mp hb
    obtain ⟨hh1, hh2, hh3, hh4⟩ := TreapNode.isHeap_node_iff.mp hh
    by_cases hvl : v < el.value
    · -- Ordering::Greater: the target can only sit in the left subtree
      have hnotr : v ∉ r.keys := by
        intro hk
        obtain ⟨x, hx, hxv⟩ := TreapNode.mem_keys.mp hk
        have hgt : el.value < v := by rw [← hxv]; exact hb2 x hx
        exact absurd (lt_trans hvl hgt) (lt_irrefl v)
      cases l with
      | leaf =>
        refine ⟨(.node el .leaf r, false),
          TreapNode.del_gt_leaf_unfold el r v hne hvl, hb, hh, ?_, ?_⟩
        · intro _
          refine ⟨rfl, ?_⟩
          rw [TreapNode.keys_node]
          intro hmem
          rcases Multiset.mem_cons.mp hmem with hk | hk
          · exact hne hk.symm
          · rcases Multiset.mem_add.mp hk with hk | hk
            · simp [TreapNode.keys, TreapNode.elems] at hk
            · exact hnotr hk
        · intro hfalse
          exact absurd hfalse (by simp)
      | node le ll lr =>
        by_cases hfound : le.value = v
        · refine ⟨(.node el (TreapNode.delete_child (.node le ll lr)) r, true),
            TreapNode.del_gt_found_unfold el le ll lr r v hne hvl hfound, ?_, ?_, ?_, ?_⟩
          · rw [TreapNode.isBST_node_iff]
            refine ⟨?_, hb2, TreapNode.delete_child_isBST _ hb3, hb4⟩
            intro x hx
            rw [TreapNode.delete_child_elems] at hx
            exact hb1 x (TreapNode.mem_elems_node.mpr (Or.inr (Multiset.mem_add.mp hx)))
          · rw [TreapNode.isHeap_node_iff]
            obtain ⟨hl1, hl2, hl3, hl4⟩ := TreapNode.isHeap_node_iff.mp hh3
            refine ⟨?_, hh2, TreapNode.delete_child_isHeap _ ⟨hl3, hl4⟩, hh4⟩
            apply TreapNode.heap_check_of_all
            intro x hx
            rw [TreapNode.delete_child_elems] at hx
            exact TreapNode.isHeap_all hh3 x
              (TreapNode.mem_elems_node.mpr (Or.inr (Multiset.mem_add.mp hx))) el hh1
          · intro hfalse
            exact absurd hfalse (by simp)
          · intro _
            refine ⟨le, hfound, ?_⟩
            show (TreapNode.node el (.node le ll lr) r).elems
              = le ::ₘ (TreapNode.node el (TreapNode.delete_child (.node le ll lr)) r).elems
            rw [show (TreapNode.node el (TreapNode.delete_child (.node le ll lr)) r).elems
                = el ::ₘ ((TreapNode.delete_child (.node le ll lr)).elems + r.elems) from rfl]
            rw [TreapNode.delete_child_elems]
            show el ::ₘ ((le ::ₘ (ll.elems + lr.elems)) + r.elems)
              = le ::ₘ (el ::ₘ ((ll.elems + lr.elems) + r.elems))
            exact TreapNode.elems_cons_swap_left el le _ _
        · obtain ⟨q', heq, qb, qh, hfq, htq⟩ :=
            ihl hb3 hh3 hfound
          refine ⟨(.node el q'.1 r, q'.2), ?_, ?_, ?_, ?_, ?_⟩
          · rw [TreapNode.del_gt_rec_unfold el le ll lr r v hne hvl hfound, heq]
            rfl
          · have hsub : q'.1.elems ≤ (TreapNode.node le ll lr).elems := by
              cases hq2 : q'.2 with
              | false => rw [(hfq hq2).1]
              | true =>
                obtain ⟨x, _, hxe⟩ := htq hq2
                rw [hxe]
                exact Multiset.le_cons_self _ _
            rw [TreapNode.isBST_node_iff]
            refine ⟨?_, hb2, qb, hb4⟩
            intro x hx
            exact hb1 x (Multiset.mem_of_le hsub hx)
          · have hsub : q'.1.elems ≤ (TreapNode.node le ll lr).elems := by
              cases hq2 : q'.2 with
              | false => rw [(hfq hq2).1]
              | true =>
                obtain ⟨x, _, hxe⟩ := htq hq2
                rw [hxe]
                exact Multiset.le_cons_self _ _
            rw [TreapNode.isHeap_node_iff]
            refine ⟨?_, hh2, qh, hh4⟩
            apply TreapNode.heap_check_of_all
            intro x hx
            exact TreapNode.isHeap_all hh3 x (Multiset.mem_of_le hsub hx) el hh1
          · intro hq2
            obtain ⟨hq1, hkeys⟩ := hfq hq2
            refine ⟨by rw [hq1], ?_⟩
            rw [TreapNode.keys_node]
            intro hmem
            rcases Multiset.mem_cons.mp hmem with hk | hk
            · exact hne hk.symm
            · rcases Multiset.mem_add.mp hk with hk | hk
              · exact hkeys hk
              · exact hnotr hk
          · intro hq2
            obtain ⟨x, hxv, hxe⟩ := htq hq2
            refine ⟨x, hxv, ?_⟩
            show el ::ₘ ((TreapNode.node le ll lr).elems + r.elems)
              = x ::ₘ (el ::ₘ (q'.1.elems + r.elems))
            rw [hxe]
            exact TreapNode.elems_cons_swap_left el x _ _
    · -- Ordering::Less
      have hvr : el.value < v := lt_of_le_of_ne (not_lt.mp hvl) hne
      have hnotl : v ∉ l.keys := by
        intro hk
        obtain ⟨x, hx, hxv⟩ := TreapNode.mem_keys.mp hk
        have hltv : v < el.value := by rw [← hxv]; exact hb1 x hx
        exact absurd (lt_trans hvr hltv) (lt_irrefl el.value)
      cases r with
      | leaf =>
        refine ⟨(.node el l .leaf, false),
          TreapNode.del_lt_leaf_unfold el l v hne hvl, hb, hh, ?_, ?_⟩
        · intro _
          refine ⟨rfl, ?_⟩
          rw [TreapNode.keys_node]
          intro hmem
          rcases Multiset.mem_cons.mp hmem with hk | hk
          · exact hne hk.symm
          · rcases Multiset.mem_add.mp hk with hk | hk
            · exact hnotl hk
            · simp [TreapNode.keys, TreapNode.elems] at hk
        · intro hfalse
          exact absurd hfalse (by simp)
      | node re rl rr =>
        by_cases hfound : re.value = v
        · refine ⟨(.node el l (TreapNode.delete_child (.node re rl rr)), true),
            TreapNode.del_lt_found_unfold el re l rl rr v hne hvl hfound, ?_, ?_, ?_, ?_⟩
          · rw [TreapNode.isBST_node_iff]
            refine ⟨hb1, ?_, hb3, TreapNode.delete_child_isBST _ hb4⟩
            intro x hx
            rw [TreapNode.delete_child_elems] at hx
            exact hb2 x (TreapNode.mem_elems_node.mpr (Or.inr (Multiset.mem_add.mp hx)))
          · rw [TreapNode.isHeap_node_iff]
            obtain ⟨hr1, hr2, hr3, hr4⟩ := TreapNode.isHeap_node_iff.mp hh4
            refine ⟨hh1, ?_, hh3, TreapNode.delete_child_isHeap _ ⟨hr3, hr4⟩⟩
            apply TreapNode.heap_check_of_all
            intro x hx
            rw [TreapNode.delete_child_elems] at hx
            exact TreapNode.isHeap_all hh4 x
              (TreapNode.mem_elems_node.mpr (Or.inr (Multiset.mem_add.mp hx))) el hh2
          · intro hfalse
            exact absurd hfalse (by simp)
          · intro _
            refine ⟨re, hfound, ?_⟩
            show (TreapNode.node el l (.node re rl rr)).elems
              = re ::ₘ (TreapNode.node el l (TreapNode.delete_child (.node re rl rr))).elems
            rw [show (TreapNode.node el l (TreapNode.delete_child (.node re rl rr))).elems
                = el ::ₘ (l.elems + (TreapNode.delete_child (.node re rl rr)).elems) from rfl]
            rw [TreapNode.delete_child_elems]
            exact TreapNode.elems_cons_swap_right el re _ _
        · obtain ⟨q', heq, qb, qh, hfq, htq⟩ :=
            ihr hb4 hh4 hfound
          refine ⟨(.node el l q'.1, q'.2), ?_, ?_, ?_, ?_, ?_⟩
          · rw [TreapNode.del_lt_rec_unfold el re l rl rr v hne hvl hfound, heq]
            rfl
          · have hsub : q'.1.elems ≤ (TreapNode.node re rl rr).elems := by
              cases hq2 : q'.2 with
              | false => rw [(hfq hq2).1]
              | true =>
                obtain ⟨x, _, hxe⟩ := htq hq2
                rw [hxe]
                exact Multiset.le_cons_self _ _
            rw [TreapNode.isBST_node_iff]
            refine ⟨hb1, ?_, hb3, qb⟩
            intro x hx
            exact hb2 x (Multiset.mem_of_le hsub hx)
          · have hsub : q'.1.elems ≤ (TreapNode.node re rl rr).elems := by
              cases hq2 : q'.2 with
              | false => rw [(hfq hq2).1]
              | true =>
                obtain ⟨x, _, hxe⟩ := htq hq2
                rw [hxe]
                exact Multiset.le_cons_self _ _
            rw [TreapNode.isHeap_node_iff]
            refine ⟨hh1, ?_, hh3, qh⟩
            apply TreapNode.heap_check_of_all
            intro x hx
            exact TreapNode.isHeap_all hh4 x (Multiset.mem_of_le hsub hx) el hh2
          · intro hq2
            obtain ⟨hq1, hkeys⟩ := hfq hq2
            refine ⟨by rw [hq1], ?_⟩
            rw [TreapNode.keys_node]
            intro hmem
            rcases Multiset.mem_cons.mp hmem with hk | hk
            · exact hne hk.symm
            · rcases Multiset.mem_add.mp hk with hk | hk
              · exact hnotl hk
              · exact hkeys hk
          · intro hq2
            obtain ⟨x, hxv, hxe⟩ := htq hq2
            refine ⟨x, hxv, ?_⟩
            show el ::ₘ (l.elems + (TreapNode.node re rl rr).elems)
              = x ::ₘ (el ::ₘ (l.elems + q'.1.elems))
            rw [hxe]
            exact TreapNode.elems_cons_swap_right el x _ _

/-- Under INV-BST, `get` finds the target value exactly when it is stored. -/
theorem TreapNode.get_eq_none_iff {t : TreapNode T P} (hb : t.isBST = true) (v : T) :
    t.get v = none ↔ v ∉ t.keys := by
  induction t with
  | leaf => simp [TreapNode.get, TreapNode.keys, TreapNode.elems]
  | node e l r ihl ihr =>
    obtain ⟨hb1, hb2, hb3, hb4⟩ := TreapNode.isBST_node_iff.mp hb
    by_cases hev : e.value = v
    · constructor
      · intro hnone
        rw [show TreapNode.get (.node e l r) v = some e by simp [TreapNode.get, hev]] at hnone
        exact absurd hnone (by simp)
      · intro hmem
        exact absurd (TreapNode.mem_keys.mpr ⟨e, TreapNode.self_mem_elems_node e l r, hev⟩) hmem
    · by_cases hvl : v < e.value
      · have hnr : v ∉ r.keys := by
          intro hk
          obtain ⟨x, hx, hxv⟩ := TreapNode.mem_keys.mp hk
          have : e.value < v := by rw [← hxv]; exact hb2 x hx
          exact absurd (lt_trans hvl this) (lt_irrefl v)
        rw [show TreapNode.get (.node e l r) v = l.get v by simp [TreapNode.get, hev, hvl]]
        rw [ihl hb3]
        constructor
        · intro hnl hmem
          rw [TreapNode.keys_node] at hmem
          rcases Multiset.mem_cons.mp hmem with hk | hk
          · exact hev hk.symm
          · rcases Multiset.mem_add.mp hk with hk | hk
            · exact hnl hk
            · exact hnr hk
        · intro hmem hk
          exact hmem (by rw [TreapNode.keys_node]
                         exact Multiset.mem_cons_of_mem (Multiset.mem_add.mpr (Or.inl hk)))
      · have hvr : e.value < v := lt_of_le_of_ne (not_lt.mp hvl) hev
        have hnl : v ∉ l.keys := by
          intro hk
          obtain ⟨x, hx, hxv⟩ := TreapNode.mem_keys.mp hk
          have : v < e.value := by rw [← hxv]; exact hb1 x hx
          exact absurd (lt_trans hvr this) (lt_irrefl e.value)
        rw [show TreapNode.get (.node e l r) v = r.get v by simp [TreapNode.get, hev, hvl]]
        rw [ihr hb4]
        constructor
        · intro hnr hmem
          rw [TreapNode.keys_node] at hmem
          rcases Multiset.mem_cons.mp hmem with hk | hk
          · exact hev hk.symm
          · rcases Multiset.mem_add.mp hk with hk | hk
            · exact hnl hk
            · exact hnr hk
        · intro hmem hk
          exact hmem (by rw [TreapNode.keys_node]
                         exact Multiset.mem_cons_of_mem (Multiset.mem_add.mpr (Or.inr hk)))

/-- `Treap::insert` preserves both invariants. -/
theorem Treap.insert_inv (t : Treap T P) (en : Element T P)
    (hb : t.root.isBST = true) (hh : t.root.isHeap = true) :
    (t.insert en).root.isBST = true ∧ (t.insert en).root.isHeap = true := by
  obtain ⟨rt, sz⟩ := t
  cases rt with
  | leaf =>
    constructor
    · show (TreapNode.node en .leaf .leaf).isBST = true
      rw [TreapNode.isBST_node_iff]
      exact ⟨fun x hx => by simp [TreapNode.elems_leaf] at hx,
        fun x hx => by simp [TreapNode.elems_leaf] at hx, rfl, rfl⟩
    · show (TreapNode.node en .leaf .leaf).isHeap = true
      rw [TreapNode.isHeap_node_iff]
      exact ⟨rfl, rfl, rfl, rfl⟩
  | node e l r =>
    obtain ⟨_, _, _, hins4, hins5⟩ := TreapNode.insert_spec (.node e l r) en
    exact ⟨hins4 hb, hins5 hh⟩

/-- `Treap::insert` of an absent value creates a node: element added,
counter incremented, invariants kept. -/
theorem Treap.insert_new (t : Treap T P) (en : Element T P)
    (hb : t.root.isBST = true) (hh : t.root.isHeap = true)
    (habs : en.value ∉ t.root.keys)
    (hsz : t.size = Multiset.card t.root.elems) :
    (t.insert en).root.elems = en ::ₘ t.root.elems ∧
    (t.insert en).size = t.size + 1 ∧
    (t.insert en).root.isBST = true ∧ (t.insert en).root.isHeap = true := by
  obtain ⟨hbst, hheap⟩ := Treap.insert_inv t en hb hh
  obtain ⟨rt, sz⟩ := t
  cases rt with
  | leaf =>
    refine ⟨by simp [Treap.insert, TreapNode.elems], ?_, hbst, hheap⟩
    show 1 = sz + 1
    simp only [TreapNode.elems] at hsz
    simp at hsz
    omega
  | node e l r =>
    obtain ⟨_, hins2, hins3, _, _⟩ := TreapNode.insert_spec (.node e l r) en
    have hb2 := hins3 habs
    constructor
    · show (TreapNode.insert_or_replace (.node e l r) (.node en .leaf .leaf)).1.elems = _
      exact hins2 hb2
    · refine ⟨?_, hbst, hheap⟩
      show (if (TreapNode.insert_or_replace (.node e l r) (.node en .leaf .leaf)).2
            then sz + 1 else sz) = sz + 1
      rw [hb2]
      rfl

/-- Deleting the root after `rotate_left`: the promoted right child `c`
becomes the root, the old root (the target) is immediately found as the
left child and removed by `delete_child`.  The hypothesis `hAle` bounds
the old left subtree by the promoted priority (vacuous for an absent
left child; from the rotation policy when both children exist). -/
theorem TreapNode.root_delete_via_rotl (el c : Element T P) (A B C : TreapNode T P) (v : T)
    (hv : el.value = v)
    (hb : (TreapNode.node el A (.node c B C)).isBST = true)
    (hh : (TreapNode.node el A (.node c B C)).isHeap = true)
    (hAle : ∀ x ∈ A.elems, x.priority ≤ c.priority) :
    TreapNode.delete (TreapNode.rotate_left (.node el A (.node c B C))) v
      = some (.node c (TreapNode.delete_child (.node el A B)) C, true) ∧
    (TreapNode.node c (TreapNode.delete_child (.node el A B)) C).isBST = true ∧
    (TreapNode.node c (TreapNode.delete_child (.node el A B)) C).isHeap = true ∧
    (TreapNode.node el A (.node c B C)).elems
      = el ::ₘ (TreapNode.node c (TreapNode.delete_child (.node el A B)) C).elems ∧
    v ∉ (TreapNode.node c (TreapNode.delete_child (.node el A B)) C).keys := by
  obtain ⟨hb1, hb2, hb3, hb4⟩ := TreapNode.isBST_node_iff.mp hb
  obtain ⟨h41, h42, h43, h44⟩ := TreapNode.isBST_node_iff.mp hb4
  obtain ⟨hh1, hh2, hh3, hh4⟩ := TreapNode.isHeap_node_iff.mp hh
  obtain ⟨hr1, hr2, hr3, hr4⟩ := TreapNode.isHeap_node_iff.mp hh4
  have hcv : v < c.value := by
    rw [← hv]
    exact hb2 c (TreapNode.self_mem_elems_node c B C)
  have hBel : ∀ x ∈ B.elems, el.value < x.value := fun x hx =>
    hb2 x (TreapNode.mem_elems_node.mpr (Or.inr (Or.inl hx)))
  refine ⟨?_, ?_, ?_, ?_, ?_⟩
  · show TreapNode.delete (.node c (.node el A B) C) v = _
    exact TreapNode.del_gt_found_unfold c el A B C v (fun h => absurd (h ▸ hcv) (lt_irrefl v))
      hcv hv
  · rw [TreapNode.isBST_node_iff]
    refine ⟨?_, h42, ?_, h44⟩
    · intro x hx
      rw [TreapNode.delete_child_elems] at hx
      rcases Multiset.mem_add.mp hx with hx | hx
      · exact lt_trans (hb1 x hx) (hv ▸ hcv)
      · exact h41 x hx
    · apply TreapNode.delete_child_isBST
      rw [TreapNode.isBST_node_iff]
      exact ⟨hb1, hBel, hb3, h43⟩
  · rw [TreapNode.isHeap_node_iff]
    refine ⟨?_, hr2, TreapNode.delete_child_isHeap _ ⟨hh3, hr3⟩, hr4⟩
    apply TreapNode.heap_check_of_all
    intro x hx
    rw [TreapNode.delete_child_elems] at hx
    rcases Multiset.mem_add.mp hx with hx | hx
    · exact hAle x hx
    · exact TreapNode.isHeap_all hr3 x hx c hr1
  · show el ::ₘ (A.elems + (c ::ₘ (B.elems + C.elems)))
      = el ::ₘ (c ::ₘ ((TreapNode.delete_child (.node el A B)).elems + C.elems))
    rw [TreapNode.delete_child_elems]
    show el ::ₘ (A.elems + (c ::ₘ (B.elems + C.elems)))
      = el ::ₘ (c ::ₘ ((A.elems + B.elems) + C.elems))
    simp only [← Multiset.singleton_add]
    abel
  · rw [TreapNode.keys_node]
    intro hmem
    rcases Multiset.mem_cons.mp hmem with hk | hk
    · exact absurd (hk ▸ hcv) (lt_irrefl v)
    · rcases Multiset.mem_add.mp hk with hk | hk
      · obtain ⟨x, hx, hxv⟩ := TreapNode.mem_keys.mp hk
        rw [TreapNode.delete_child_elems] at hx
        rcases Multiset.mem_add.mp hx with hx | hx
        · have : v < v := by
            calc v = x.value := hxv.symm
              _ < el.value := hb1 x hx
              _ = v := hv
          exact absurd this (lt_irrefl v)
        · have : v < v := by
            calc v = el.value := hv.symm
              _ < x.value := hBel x hx
              _ = v := hxv
          exact absurd this (lt_irrefl v)
      · obtain ⟨x, hx, hxv⟩ := TreapNode.mem_keys.mp hk
        have : v < v := by
          calc v < c.value := hcv
            _ < x.value := h42 x hx
            _ = v := hxv
        exact absurd this (lt_irrefl v)

/-- Mirror of `root_delete_via_rotl` for `rotate_right`. -/
theorem TreapNode.root_delete_via_rotr (el c : Element T P) (Cl B R : TreapNode T P) (v : T)
    (hv : el.value = v)
    (hb : (TreapNode.node el (.node c Cl B) R).isBST = true)
    (hh : (TreapNode.node el (.node c Cl B) R).isHeap = true)
    (hRle : ∀ x ∈ R.elems, x.priority ≤ c.priority) :
    TreapNode.delete (TreapNode.rotate_right (.node el (.node c Cl B) R)) v
      = some (.node c Cl (TreapNode.delete_child (.node el B R)), true) ∧
    (TreapNode.node c Cl (TreapNode.delete_child (.node el B R))).isBST = true ∧
    (TreapNode.node c Cl (TreapNode.delete_child (.node el B R))).isHeap = true ∧
    (TreapNode.node el (.node c Cl B) R).elems
      = el ::ₘ (TreapNode.node c Cl (TreapNode.delete_child (.node el B R))).elems ∧
    v ∉ (TreapNode.node c Cl (TreapNode.delete_child (.node el B R))).keys := by
  obtain ⟨hb1, hb2, hb3, hb4⟩ := TreapNode.isBST_node_iff.mp hb
  obtain ⟨h31, h32, h33, h34⟩ := TreapNode.isBST_node_iff.mp hb3
  obtain ⟨hh1, hh2, hh3, hh4⟩ := TreapNode.isHeap_node_iff.mp hh
  obtain ⟨hl1, hl2, hl3, hl4⟩ := TreapNode.isHeap_node_iff.mp hh3
  have hcv : c.value < v := by
    rw [← hv]
    exact hb1 c (TreapNode.self_mem_elems_node c Cl B)
  have hBel : ∀ x ∈ B.elems, x.value < el.value := fun x hx =>
    hb1 x (TreapNode.mem_elems_node.mpr (Or.inr (Or.inr hx)))
  refine ⟨?_, ?_, ?_, ?_, ?_⟩
  · show TreapNode.delete (.node c Cl (.node el B R)) v = _
    exact TreapNode.del_lt_found_unfold c el Cl B R v (fun h => absurd (h ▸ hcv) (lt_irrefl v))
      (fun h => absurd (lt_trans h hcv) (lt_irrefl v)) hv
  · rw [TreapNode.isBST_node_iff]
    refine ⟨h31, ?_, h33, ?_⟩
    · intro x hx
      rw [TreapNode.delete_child_elems] at hx
      rcases Multiset.mem_add.mp hx with hx | hx
      · exact h32 x hx
      · exact lt_trans hcv (hv ▸ hb2 x hx)
    · apply TreapNode.delete_child_isBST
      rw [TreapNode.isBST_node_iff]
      exact ⟨hBel, hb2, h34, hb4⟩
  · rw [TreapNode.isHeap_node_iff]
    refine ⟨hl1, ?_, hl3, TreapNode.delete_child_isHeap _ ⟨hl4, hh4⟩⟩
    apply TreapNode.heap_check_of_all
    intro x hx
    rw [TreapNode.delete_child_elems] at hx
    rcases Multiset.mem_add.mp hx with hx | hx
    · exact TreapNode.isHeap_all hl4 x hx c hl2
    · exact hRle x hx
  · show el ::ₘ ((c ::ₘ (Cl.elems + B.elems)) + R.elems)
      = el ::ₘ (c ::ₘ (Cl.elems + (TreapNode.delete_child (.node el B R)).elems))
    rw [TreapNode.delete_child_elems]
    show el ::ₘ ((c ::ₘ (Cl.elems + B.elems)) + R.elems)
      = el ::ₘ (c ::ₘ (Cl.elems + (B.elems + R.elems)))
    simp only [← Multiset.singleton_add]
    abel
  · rw [TreapNode.keys_node]
    intro hmem
    rcases Multiset.mem_cons.mp hmem with hk | hk
    · exact absurd (hk ▸ hcv) (lt_irrefl v)
    · rcases Multiset.mem_add.mp hk with hk | hk
      · obtain ⟨x, hx, hxv⟩ := TreapNode.mem_keys.mp hk
        have : v < v := by
          calc v = x.value := hxv.symm
            _ < c.value := h31 x hx
            _ < v := hcv
        exact absurd this (lt_irrefl v)
      · obtain ⟨x, hx, hxv⟩ := TreapNode.mem_keys.mp hk
        rw [TreapNode.delete_child_elems] at hx
        rcases Multiset.mem_add.mp hx with hx | hx
        · have : v < v := by
            calc v = x.value := hxv.symm
              _ < el.value := hBel x hx
              _ = v := hv
          exact absurd this (lt_irrefl v)
        · have : v < v := by
            calc v = el.value := hv.symm
              _ < x.value := hb2 x hx
              _ = v := hxv
          exact absurd this (lt_irrefl v)

theorem Treap.tdel_leaf (sz : Nat) (v : T) :
    (Treap.mk (.leaf : TreapNode T P) sz).delete v = some ⟨.leaf, sz⟩ := rfl

theorem Treap.tdel_ne (el : Element T P) (l r : TreapNode T P) (sz : Nat) (v : T)
    (hne : ¬ el.value = v) :
    (Treap.mk (.node el l r) sz).delete v
      = (TreapNode.delete (.node el l r) v).map
          fun q => ⟨q.1, if q.2 then sz - 1 else sz⟩ := by
  simp only [Treap.delete, hne, ite_false, if_false]

theorem Treap.tdel_eq_ll (el : Element T P) (sz : Nat) (v : T) (hev : el.value = v) :
    (Treap.mk (.node el .leaf .leaf) sz).delete v = some ⟨.leaf, 0⟩ := by
  simp only [Treap.delete, hev, ite_true, if_true]
  rfl

theorem Treap.tdel_eq_lr (el re : Element T P) (rl rr : TreapNode T P) (sz : Nat) (v : T)
    (hev : el.value = v) :
    (Treap.mk (.node el .leaf (.node re rl rr)) sz).delete v
      = (TreapNode.delete (TreapNode.rotate_left (.node el .leaf (.node re rl rr))) v).map
          fun q => ⟨q.1, if q.2 then sz - 1 else sz⟩ := by
  simp only [Treap.delete, hev, ite_true, if_true]

theorem Treap.tdel_eq_rl (el le : Element T P) (ll lr : TreapNode T P) (sz : Nat) (v : T)
    (hev : el.value = v) :
    (Treap.mk (.node el (.node le ll lr) .leaf) sz).delete v
      = (TreapNode.delete (TreapNode.rotate_right (.node el (.node le ll lr) .leaf)) v).map
          fun q => ⟨q.1, if q.2 then sz - 1 else sz⟩ := by
  simp only [Treap.delete, hev, ite_true, if_true]

theorem Treap.tdel_eq_both_pos (el le re : Element T P) (ll lr rl rr : TreapNode T P)
    (sz : Nat) (v : T) (hev : el.value = v) (hpr : le.priority < re.priority) :
    (Treap.mk (.node el (.node le ll lr) (.node re rl rr)) sz).delete v
      = (TreapNode.delete
            (TreapNode.rotate_left (.node el (.node le ll lr) (.node re rl rr))) v).map
          fun q => ⟨q.1, if q.2 then sz - 1 else sz⟩ := by
  simp only [Treap.delete, hev, hpr, ite_true, if_true]

theorem Treap.tdel_eq_both_neg (el le re : Element T P) (ll lr rl rr : TreapNode T P)
    (sz : Nat) (v : T) (hev : el.value = v) (hpr : ¬ le.priority < re.priority) :
    (Treap.mk (.node el (.node le ll lr) (.node re rl rr)) sz).delete v
      = (TreapNode.delete
            (TreapNode.rotate_right (.node el (.node le ll lr) (.node re rl rr))) v).map
          fun q => ⟨q.1, if q.2 then sz - 1 else sz⟩ := by
  simp only [Treap.delete, hev, hpr, ite_true, if_true, ite_false, if_false]

/-- Full specification of `Treap::delete` on a treap satisfying both
invariants: the call never panics, preserves the invariants, removes the
target value when present (exactly one element, counter kept consistent)
and is the identity when absent. -/
theorem Treap.tdelete_spec (t : Treap T P) (v : T)
    (hb : t.root.isBST = true) (hh : t.root.isHeap = true) :
    ∃ t' : Treap T P, t.delete v = some t' ∧
      t'.root.isBST = true ∧ t'.root.isHeap = true ∧
      v ∉ t'.root.keys ∧
      ((v ∉ t.root.keys ∧ t' = t) ∨
       (∃ x : Element T P, x.value = v ∧ t.root.elems = x ::ₘ t'.root.elems ∧
         (t.size = Multiset.card t.root.elems →
            t'.size = Multiset.card t'.root.elems))) := by
  obtain ⟨rt, sz⟩ := t
  cases rt with
  | leaf =>
    refine ⟨⟨.leaf, sz⟩, Treap.tdel_leaf sz v, rfl, rfl, ?_, Or.inl ⟨?_, rfl⟩⟩
    · simp [TreapNode.keys, TreapNode.elems]
    · simp [TreapNode.keys, TreapNode.elems]
  | node el l r =>
    by_cases hev : el.value = v
    · cases l with
      | leaf =>
        cases r with
        | leaf =>
          refine ⟨⟨.leaf, 0⟩, Treap.tdel_eq_ll el sz v hev, rfl, rfl, ?_,
            Or.inr ⟨el, hev, ?_, ?_⟩⟩
          · simp [TreapNode.keys, TreapNode.elems]
          · show el ::ₘ ((0 : Multiset (Element T P)) + 0) = el ::ₘ 0
            simp
          · intro _
            simp [TreapNode.elems]
        | node re rl rr =>
          obtain ⟨hdel, hbst, hheap, helems, hkeys⟩ :=
            TreapNode.root_delete_via_rotl el re .leaf rl rr v hev hb hh
              (fun x hx => absurd hx (by simp [TreapNode.elems_leaf]))
          refine ⟨⟨.node re (TreapNode.delete_child (.node el .leaf rl)) rr, sz - 1⟩,
            ?_, hbst, hheap, hkeys, Or.inr ⟨el, hev, helems, ?_⟩⟩
          · rw [Treap.tdel_eq_lr el re rl rr sz v hev, hdel]
            rfl
          · intro hsz
            show sz - 1 = _
            have hc : Multiset.card ((TreapNode.node el .leaf (.node re rl rr)).elems)
                = Multiset.card ((TreapNode.node re
                    (TreapNode.delete_child (.node el .leaf rl)) rr).elems) + 1 := by
              rw [helems]
              simp
            dsimp only at hsz ⊢
            omega
      | node le ll lr =>
        cases r with
        | leaf =>
          obtain ⟨hdel, hbst, hheap, helems, hkeys⟩ :=
            TreapNode.root_delete_via_rotr el le ll lr .leaf v hev hb hh
              (fun x hx => absurd hx (by simp [TreapNode.elems_leaf]))
          refine ⟨⟨.node le ll (TreapNode.delete_child (.node el lr .leaf)), sz - 1⟩,
            ?_, hbst, hheap, hkeys, Or.inr ⟨el, hev, helems, ?_⟩⟩
          · rw [Treap.tdel_eq_rl el le ll lr sz v hev, hdel]
            rfl
          · intro hsz
            have hc : Multiset.card ((TreapNode.node el (.node le ll lr) .leaf).elems)
                = Multiset.card ((TreapNode.node le ll
                    (TreapNode.delete_child (.node el lr .leaf))).elems) + 1 := by
              rw [helems]
              simp
            dsimp only at hsz ⊢
            omega
        | node re rl rr =>
          obtain ⟨hh1, hh2, hh3, hh4⟩ := TreapNode.isHeap_node_iff.mp hh
          by_cases hpr : le.priority < re.priority
          · obtain ⟨hdel, hbst, hheap, helems, hkeys⟩ :=
              TreapNode.root_delete_via_rotl el re (.node le ll lr) rl rr v hev hb hh
                (fun x hx => le_trans (TreapNode.isHeap_root_le hh3 x hx) (le_of_lt hpr))
            refine ⟨⟨.node re (TreapNode.delete_child (.node el (.node le ll lr) rl)) rr,
              sz - 1⟩, ?_, hbst, hheap, hkeys, Or.inr ⟨el, hev, helems, ?_⟩⟩
            · rw [Treap.tdel_eq_both_pos el le re ll lr rl rr sz v hev hpr, hdel]
              rfl
            · intro hsz
              have hc : Multiset.card ((TreapNode.node el (.node le ll lr)
                    (.node re rl rr)).elems)
                  = Multiset.card ((TreapNode.node re
                      (TreapNode.delete_child (.node el (.node le ll lr) rl)) rr).elems)
                    + 1 := by
                rw [helems]
                simp
              dsimp only at hsz ⊢
              omega
          · obtain ⟨hdel, hbst, hheap, helems, hkeys⟩ :=
              TreapNode.root_delete_via_rotr el le ll lr (.node re rl rr) v hev hb hh
                (fun x hx => le_trans (TreapNode.isHeap_root_le hh4 x hx) (not_lt.mp hpr))
            refine ⟨⟨.node le ll (TreapNode.delete_child (.node el lr (.node re rl rr))),
              sz - 1⟩, ?_, hbst, hheap, hkeys, Or.inr ⟨el, hev, helems, ?_⟩⟩
            · rw [Treap.tdel_eq_both_neg el le re ll lr rl rr sz v hev hpr, hdel]
              rfl
            · intro hsz
              have hc : Multiset.card ((TreapNode.node el (.node le ll lr)
                    (.node re rl rr)).elems)
                  = Multiset.card ((TreapNode.node le ll
                      (TreapNode.delete_child (.node el lr (.node re rl rr)))).elems)
                    + 1 := by
                rw [helems]
                simp
              dsimp only at hsz ⊢
              omega
    · obtain ⟨q, heq, qb, qh, hfq, htq⟩ :=
        TreapNode.delete_spec (.node el l r) v hb hh hev
      cases hq2 : q.2 with
      | false =>
        obtain ⟨hq1, hknot⟩ := hfq hq2
        refine ⟨⟨q.1, sz⟩, ?_, qb, qh, ?_, Or.inl ⟨hknot, ?_⟩⟩
        · rw [Treap.tdel_ne el l r sz v hev, heq]
          simp [hq2]
        · rw [hq1]
          exact hknot
        · rw [hq1]
      | true =>
        obtain ⟨x, hxv, hxe⟩ := htq hq2
        have hnodup := TreapNode.isBST_keys_nodup hb
        have hkeyeq : (TreapNode.node el l r).keys = x.value ::ₘ q.1.keys := by
          rw [TreapNode.keys, hxe, Multiset.map_cons]
          rfl
        have hknot : v ∉ q.1.keys := by
          rw [hkeyeq] at hnodup
          rw [← hxv]
          exact (Multiset.nodup_cons.mp hnodup).1
        refine ⟨⟨q.1, sz - 1⟩, ?_, qb, qh, hknot, Or.inr ⟨x, hxv, hxe, ?_⟩⟩
        · rw [Treap.tdel_ne el l r sz v hev, heq]
          simp [hq2]
        · intro hsz
          have hc : Multiset.card ((TreapNode.node el l r).elems)
              = Multiset.card (q.1.elems) + 1 := by
            rw [hxe]
            simp
          dsimp only at hsz ⊢
          omega

/-- Both treap invariants hold in every state reachable through the
public API. -/
theorem Treap.reachable_inv {t : Treap T P} (h : Treap.Reachable t) :
    t.root.isBST = true ∧ t.root.isHeap = true := by
  induction h with
  | new => exact ⟨rfl, rfl⟩
  | insert e h ih => exact Treap.insert_inv _ e ih.1 ih.2
  | delete v h heq ih =>
    obtain ⟨t'', heq'', hb, hh, _, _⟩ := Treap.tdelete_spec _ v ih.1 ih.2
    rw [heq] at heq''
    cases heq''
    exact ⟨hb, hh⟩
  | reset h ih => exact ⟨rfl, rfl⟩

/-- The internal invariant of estimator states: treap invariants, a
consistent size counter, the reservoir bound, and a positive capacity. -/
def CountUnique.Inv (s : CountUnique T) : Prop :=
  s.treap.root.isBST = true ∧ s.treap.root.isHeap = true ∧
  s.treap.size = Multiset.card s.treap.root.elems ∧
  s.treap.size ≤ s.max_size ∧ 1 ≤ s.max_size

theorem Treap.get_max_node (e : Element T P) (l r : TreapNode T P) (sz : Nat) :
    (Treap.mk (.node e l r) sz).get_max = some e := rfl

/-- One `add_token` step from an invariant state: no panic, the invariant
is preserved, the threshold does not increase, the capacity is unchanged. -/
theorem CountUnique.add_token_spec (s : CountUnique T) (tok : T) (u : ℚ)
    (hinv : CountUnique.Inv s) :
    ∃ s' : CountUnique T, s.add_token tok u = some s' ∧
      CountUnique.Inv s' ∧ s'.p ≤ s.p ∧ s'.max_size = s.max_size := by
  obtain ⟨hb, hh, hsz, hbound, hmax⟩ := hinv
  obtain ⟨tr, heq, trb, trh, hknot, hcase⟩ := Treap.tdelete_spec s.treap tok hb hh
  have htr_sz : tr.size = Multiset.card tr.root.elems := by
    rcases hcase with ⟨_, h⟩ | ⟨x, _, hxe, hcons⟩
    · rw [h]
      exact hsz
    · exact hcons hsz
  have htr_le : tr.size ≤ s.treap.size := by
    rcases hcase with ⟨_, h⟩ | ⟨x, _, hxe, hcons⟩
    · rw [h]
    · have hcard : Multiset.card s.treap.root.elems = Multiset.card tr.root.elems + 1 := by
        rw [hxe]
        simp
      omega
  have htr_bound : tr.size ≤ s.max_size := le_trans htr_le hbound
  by_cases hu : u < s.p
  · by_cases hsmall : tr.size < s.max_size
    · obtain ⟨helems, hsize, hbst, hheap⟩ :=
        Treap.insert_new tr ⟨tok, u⟩ trb trh hknot htr_sz
      refine ⟨⟨tr.insert ⟨tok, u⟩, s.max_size, s.p⟩, ?_, ?_, le_refl _, rfl⟩
      · simp only [CountUnique.add_token, heq, if_pos hu, if_pos hsmall]
      · refine ⟨hbst, hheap, ?_, ?_, hmax⟩
        · rw [hsize, helems, htr_sz]
          simp
        · show (tr.insert ⟨tok, u⟩).size ≤ s.max_size
          rw [hsize]
          omega
    · -- reservoir full: inspect the maximum
      cases htr_root : tr.root with
      | leaf =>
        exfalso
        rw [htr_root] at htr_sz
        simp [TreapNode.elems] at htr_sz
        omega
      | node m ml mr =>
        have hmax_eq : tr.get_max = some m := by
          obtain ⟨trt, trsz⟩ := tr
          simp only at htr_root
          rw [htr_root]
          exact Treap.get_max_node m ml mr trsz
        by_cases hmp : m.priority > u
        · refine ⟨⟨tr, s.max_size, u⟩, ?_, ⟨trb, trh, htr_sz, htr_bound, hmax⟩,
            le_of_lt hu, rfl⟩
          simp only [CountUnique.add_token, heq, if_pos hu, if_neg hsmall, hmax_eq,
            if_pos hmp]
        · obtain ⟨tr2, heq2, tr2b, tr2h, hknot2, hcase2⟩ :=
            Treap.tdelete_spec tr m.value trb trh
          have hmmem : m.value ∈ tr.root.keys := by
            rw [htr_root]
            exact TreapNode.mem_keys.mpr ⟨m, TreapNode.self_mem_elems_node m ml mr, rfl⟩
          rcases hcase2 with ⟨habs2, _⟩ | ⟨x2, hx2v, hx2e, hcons2⟩
          · exact absurd hmmem habs2
          · have htok2 : tok ∉ tr2.root.keys := by
              intro hk
              apply hknot
              have : tr.root.keys = x2.value ::ₘ tr2.root.keys := by
                rw [TreapNode.keys, hx2e, Multiset.map_cons]
                rfl
              rw [this]
              exact Multiset.mem_cons_of_mem hk
            have htr2_sz : tr2.size = Multiset.card tr2.root.elems := hcons2 htr_sz
            obtain ⟨helems, hsize, hbst, hheap⟩ :=
              Treap.insert_new tr2 ⟨tok, u⟩ tr2b tr2h htok2 htr2_sz
            refine ⟨⟨tr2.insert ⟨tok, u⟩, s.max_size, m.priority⟩, ?_, ?_, ?_, rfl⟩
            · simp only [CountUnique.add_token, heq, if_pos hu, if_neg hsmall, hmax_eq,
                if_neg hmp, heq2]
            · refine ⟨hbst, hheap, ?_, ?_, hmax⟩
              · rw [hsize, helems, htr2_sz]
                simp
              · show (tr2.insert ⟨tok, u⟩).size ≤ s.max_size
                have hcard2 : Multiset.card tr.root.elems
                    = Multiset.card tr2.root.elems + 1 := by
                  rw [hx2e]
                  simp
                rw [hsize]
                omega
            · show m.priority ≤ s.p
              exact le_of_lt (lt_of_le_of_lt (not_lt.mp hmp) hu)
  · refine ⟨⟨tr, s.max_size, s.p⟩, ?_, ⟨trb, trh, htr_sz, htr_bound, hmax⟩, le_refl _, rfl⟩
    simp only [CountUnique.add_token, heq, if_neg hu]

/-- The estimator invariant holds in every reachable state. -/
theorem CountUnique.est_reachable_inv {s : CountUnique T} (h : CountUnique.Reachable s) :
    CountUnique.Inv s := by
  induction h with
  | new hnew =>
    rename_i sz s
    by_cases h1 : sz < 1
    · rw [CountUnique.new, if_pos h1] at hnew
      cases hnew
    · rw [CountUnique.new, if_neg h1] at hnew
      cases hnew
      exact ⟨rfl, rfl, rfl, Nat.zero_le _, not_lt.mp h1⟩
  | add tok u h hu0 hu1 heq ih =>
    obtain ⟨s'', heq'', hinv'', _, _⟩ := CountUnique.add_token_spec _ tok u ih
    rw [heq] at heq''
    cases heq''
    exact hinv''
  | reset h ih =>
    exact ⟨rfl, rfl, rfl, Nat.zero_le _, ih.2.2.2.2⟩

/-- An `add_token` step in the regime the capacity-11 scenario stays in:
threshold still 1, every key drawn from a nodup universe `D` that fits
the capacity.  The step admits the token, keeps `p = 1` and keeps every
previously stored key. -/
theorem CountUnique.add_token_keys (s : CountUnique T) (tok : T) (u : ℚ) (D : Multiset T)
    (hp : s.p = 1) (hu1 : u < 1)
    (hb : s.treap.root.isBST = true) (hh : s.treap.root.isHeap = true)
    (hsz : s.treap.size = Multiset.card s.treap.root.elems)
    (hkD : s.treap.root.keys ≤ D) (htokD : tok ∈ D)
    (hcap : Multiset.card D ≤ s.max_size) :
    ∃ s', s.add_token tok u = some s' ∧ s'.p = 1 ∧ s'.max_size = s.max_size ∧
      s'.treap.root.isBST = true ∧ s'.treap.root.isHeap = true ∧
      s'.treap.size = Multiset.card s'.treap.root.elems ∧
      s'.treap.root.keys ≤ D ∧
      (∀ k ∈ s.treap.root.keys, k ∈ s'.treap.root.keys) ∧
      tok ∈ s'.treap.root.keys := by
  obtain ⟨tr, heq, trb, trh, hknot, hcase⟩ := Treap.tdelete_spec s.treap tok hb hh
  have htr_sz : tr.size = Multiset.card tr.root.elems := by
    rcases hcase with ⟨_, h⟩ | ⟨x, _, hxe, hcons⟩
    · rw [h]
      exact hsz
    · exact hcons hsz
  have hktr : tr.root.keys ≤ D := by
    rcases hcase with ⟨_, h⟩ | ⟨x, hxv, hxe, _⟩
    · rw [h]
      exact hkD
    · have hkeq : s.treap.root.keys = x.value ::ₘ tr.root.keys := by
        rw [TreapNode.keys, hxe, Multiset.map_cons]
        rfl
      calc tr.root.keys ≤ x.value ::ₘ tr.root.keys := Multiset.le_cons_self _ _
        _ = s.treap.root.keys := hkeq.symm
        _ ≤ D := hkD
  have hktr_er : tr.root.keys ≤ D.erase tok := by
    rw [Multiset.le_iff_count]
    intro a
    by_cases ha : a = tok
    · subst ha
      rw [Multiset.count_eq_zero.mpr hknot]
      exact Nat.zero_le _
    · rw [Multiset.count_erase_of_ne ha]
      exact Multiset.le_iff_count.mp hktr a
  have hsmall : tr.size < s.max_size := by
    have h1 : Multiset.card tr.root.keys ≤ Multiset.card (D.erase tok) :=
      Multiset.card_le_card hktr_er
    rw [Multiset.card_erase_of_mem htokD] at h1
    have h2 : Multiset.card tr.root.keys = Multiset.card tr.root.elems := by
      rw [TreapNode.keys]
      exact Multiset.card_map _ _
    have h3 : 0 < Multiset.card D :=
      Multiset.card_pos_iff_exists_mem.mpr ⟨tok, htokD⟩
    rw [Nat.pred_eq_sub_one] at h1
    have h4 : tr.size = Multiset.card tr.root.keys := by
      rw [htr_sz]
      exact h2.symm
    omega
  have hu' : u < s.p := by
    rw [hp]
    exact hu1
  obtain ⟨helems, hsize, hbst, hheap⟩ := Treap.insert_new tr ⟨tok, u⟩ trb trh hknot htr_sz
  have hkeq' : (tr.insert ⟨tok, u⟩).root.keys = tok ::ₘ tr.root.keys := by
    rw [TreapNode.keys, helems, Multiset.map_cons]
    rfl
  refine ⟨⟨tr.insert ⟨tok, u⟩, s.max_size, s.p⟩, ?_, hp, rfl, hbst, hheap, ?_, ?_, ?_, ?_⟩
  · simp only [CountUnique.add_token, heq, if_pos hu', if_pos hsmall]
  · show (tr.insert ⟨tok, u⟩).size = _
    rw [hsize, helems, htr_sz]
    simp
  · show (tr.insert ⟨tok, u⟩).root.keys ≤ D
    rw [hkeq']
    calc tok ::ₘ tr.root.keys ≤ tok ::ₘ D.erase tok := Multiset.cons_le_cons tok hktr_er
      _ = D := Multiset.cons_erase htokD
  · intro k hk
    show k ∈ (tr.insert ⟨tok, u⟩).root.keys
    rw [hkeq']
    rcases hcase with ⟨_, h⟩ | ⟨x, hxv, hxe, _⟩
    · rw [h]
      exact Multiset.mem_cons_of_mem hk
    · have hkeq : s.treap.root.keys = x.value ::ₘ tr.root.keys := by
        rw [TreapNode.keys, hxe, Multiset.map_cons]
        rfl
      rw [hkeq] at hk
      rcases Multiset.mem_cons.mp hk with h | h
      · rw [h, hxv]
        exact Multiset.mem_cons_self _ _
      · exact Multiset.mem_cons_of_mem h
  · show tok ∈ (tr.insert ⟨tok, u⟩).root.keys
    rw [hkeq']
    exact Multiset.mem_cons_self _ _

/-- Running a stream whose tokens all come from a universe `D` that fits
the capacity, starting with `p = 1`: no draw is ever rejected, `p` stays
1, the key set stays inside `D`, and every key seen (or already stored)
is stored at the end. -/
theorem CountUnique.run_p_one (D : Multiset T) (toks : List T) :
    ∀ (us : List ℚ) (s : CountUnique T),
    (∀ x ∈ toks, x ∈ D) → us.length = toks.length → (∀ u ∈ us, u < 1) →
    s.p = 1 → Multiset.card D ≤ s.max_size →
    s.treap.root.isBST = true → s.treap.root.isHeap = true →
    s.treap.size = Multiset.card s.treap.root.elems →
    s.treap.root.keys ≤ D →
    ∃ s', s.run (toks.zip us) = some s' ∧ s'.p = 1 ∧ s'.max_size = s.max_size ∧
      s'.treap.root.isBST = true ∧ s'.treap.root.isHeap = true ∧
      s'.treap.size = Multiset.card s'.treap.root.elems ∧
      s'.treap.root.keys ≤ D ∧
      (∀ k, (k ∈ s.treap.root.keys ∨ k ∈ toks) → k ∈ s'.treap.root.keys) := by
  induction toks with
  | nil =>
    intro us s _ _ _ hp hcap hb hh hsz hkD
    refine ⟨s, rfl, hp, rfl, hb, hh, hsz, hkD, ?_⟩
    intro k hk
    rcases hk with hk | hk
    · exact hk
    · simp at hk
  | cons t ts ih =>
    intro us s htD hlen hus hp hcap hb hh hsz hkD
    cases us with
    | nil => simp at hlen
    | cons u us' =>
      obtain ⟨s1, heq1, hp1, hm1, hb1, hh1, hsz1, hkD1, hpres1, htok1⟩ :=
        CountUnique.add_token_keys s t u D hp (hus u (by simp))
          hb hh hsz hkD (htD t (by simp)) hcap
      obtain ⟨s', heq', hp', hm', hb', hh', hsz', hkD', hpres'⟩ :=
        ih us' s1 (fun x hx => htD x (by simp [hx]))
          (by simpa using hlen) (fun v hv => hus v (by simp [hv]))
          hp1 (hm1 ▸ hcap) hb1 hh1 hsz1 hkD1
      refine ⟨s', ?_, hp', hm1 ▸ hm', hb', hh', hsz', hkD', ?_⟩
      · show CountUnique.run s ((t, u) :: ts.zip us') = some s'
        simp only [CountUnique.run, heq1]
        exact heq'
      · intro k hk
        rcases hk with hk | hk
        · exact hpres' k (Or.inl (hpres1 k hk))
        · rcases List.mem_cons.mp hk with hk | hk
          · exact hpres' k (Or.inl (hk ▸ htok1))
          · exact hpres' k (Or.inr hk)

theorem Treap.tget_eq_none_iff (t : Treap T P) (hb : t.root.isBST = true) (v : T) :
    t.get v = none ↔ v ∉ t.root.keys := by
  obtain ⟨rt, sz⟩ := t
  cases rt with
  | leaf => simp [Treap.get, TreapNode.keys, TreapNode.elems]
  | node e l r =>
    show TreapNode.get (.node e l r) v = none ↔ _
    exact TreapNode.get_eq_none_iff hb v

/-- The token stream of the fixed test sentence
"This was a triumph I am making a note here huge success"
(12 whitespace-separated tokens, 11 distinct words, "a" repeated), with
each distinct word encoded by its first-occurrence index:
This=0 was=1 a=2 triumph=3 I=4 am=5 making=6 note=7 here=8 huge=9
success=10.  Only equality and order of tokens matter to the estimator. -/
def cvmSentence : List ℕ := [0, 1, 2, 3, 4, 5, 6, 2, 7, 8, 9, 10]

/-! ### The claims -/

/-- C1: on `Treap.insert` of an already-present value, the code replaces
the whole node (`mem::replace(self, node)` with a childless node), so
the replaced node's subtrees are dropped: below, value 1 sat under the
node for value 2; after re-inserting value 2 the new priority is stored
and `size` is unchanged, but value 1 is gone and only one node remains
reachable — contradicting the claim that every element of the replaced
node's subtrees is still present. -/
theorem claim_C1 :
    (((Treap.new : Treap ℕ ℤ).insert ⟨2, 0⟩).insert ⟨1, 0⟩).get 1 = some ⟨1, 0⟩ ∧
    ((((Treap.new : Treap ℕ ℤ).insert ⟨2, 0⟩).insert ⟨1, 0⟩).insert ⟨2, 1⟩).get 2
      = some ⟨2, 1⟩ ∧
    ((((Treap.new : Treap ℕ ℤ).insert ⟨2, 0⟩).insert ⟨1, 0⟩).insert ⟨2, 1⟩).get 1 = none ∧
    ((((Treap.new : Treap ℕ ℤ).insert ⟨2, 0⟩).insert ⟨1, 0⟩).insert ⟨2, 1⟩).size = 2 ∧
    ((((Treap.new : Treap ℕ ℤ).insert ⟨2, 0⟩).insert ⟨1, 0⟩).insert ⟨2, 1⟩).root.nodeCount
      = 1 := by
  decide

/-- C2: after the same insert sequence as in `claim_C1` — the third
insert replaces a node that has a left child — `size()` reports 2 while
only one node is reachable from the root, violating size consistency. -/
theorem claim_C2 :
    ((((Treap.new : Treap ℕ ℤ).insert ⟨2, 0⟩).insert ⟨1, 0⟩).insert ⟨2, 1⟩).size = 2 ∧
    ((((Treap.new : Treap ℕ ℤ).insert ⟨2, 0⟩).insert ⟨1, 0⟩).insert ⟨2, 1⟩).root.nodeCount
      = 1 := by
  decide

/-- C3: every treap reachable through the public mutating API satisfies
INV-BST and INV-HEAP at every reachable node. -/
theorem claim_C3 {T P : Type} [LinearOrder T] [LinearOrder P] (t : Treap T P)
    (h : Treap.Reachable t) :
    t.root.isBST = true ∧ t.root.isHeap = true :=
  Treap.reachable_inv h

/-- C3 witness. -/
theorem claim_C3_witness :
    ((Treap.new : Treap ℕ ℤ).insert ⟨5, 3⟩).root.isBST = true ∧
    ((Treap.new : Treap ℕ ℤ).insert ⟨5, 3⟩).root.isHeap = true :=
  claim_C3 _ (Treap.Reachable.insert ⟨5, 3⟩ Treap.Reachable.new)

/-- C4: in every reachable estimator state the reservoir treap holds at
most `max_size` elements (both the actual reachable-node count and the
size counter, which agree on estimator-reachable treaps). -/
theorem claim_C4 {T : Type} [LinearOrder T] (s : CountUnique T)
    (h : CountUnique.Reachable s) :
    Multiset.card s.treap.root.elems ≤ s.max_size ∧ s.treap.size ≤ s.max_size := by
  obtain ⟨_, _, hsz, hbound, _⟩ := CountUnique.est_reachable_inv h
  exact ⟨hsz ▸ hbound, hbound⟩

/-- C4 witness. -/
theorem claim_C4_witness :
    Multiset.card (⟨Treap.new, 3, 1⟩ : CountUnique ℕ).treap.root.elems
      ≤ (⟨Treap.new, 3, 1⟩ : CountUnique ℕ).max_size ∧
    (⟨Treap.new, 3, 1⟩ : CountUnique ℕ).treap.size
      ≤ (⟨Treap.new, 3, 1⟩ : CountUnique ℕ).max_size :=
  claim_C4 _ (CountUnique.Reachable.new
    (show (CountUnique.new 3 : Option (CountUnique ℕ)) = some ⟨Treap.new, 3, 1⟩ from rfl))

/-- C5: across a run, the admission threshold never increases: any
successful `add_token` step from a reachable state with a draw in
[0, 1) ends with `p` at most its previous value. -/
theorem claim_C5 {T : Type} [LinearOrder T] (s s' : CountUnique T) (tok : T) (u : ℚ)
    (hr : CountUnique.Reachable s) (hu0 : 0 ≤ u) (hu1 : u < 1)
    (heq : s.add_token tok u = some s') :
    s'.p ≤ s.p := by
  obtain ⟨s'', heq'', _, hp, _⟩ :=
    CountUnique.add_token_spec s tok u (CountUnique.est_reachable_inv hr)
  rw [heq] at heq''
  cases heq''
  exact hp

/-- C5 witness. -/
theorem claim_C5_witness :
    (⟨⟨.node ⟨0, 0⟩ .leaf .leaf, 1⟩, 1, 1⟩ : CountUnique ℕ).p
      ≤ (⟨Treap.new, 1, 1⟩ : CountUnique ℕ).p := by
  have hr : CountUnique.Reachable (⟨Treap.new, 1, 1⟩ : CountUnique ℕ) :=
    CountUnique.Reachable.new
      (show (CountUnique.new 1 : Option (CountUnique ℕ)) = some ⟨Treap.new, 1, 1⟩ from rfl)
  exact claim_C5 _ _ 0 0 hr le_rfl (by norm_num) (by decide)

/-- C6: on any reachable treap, the public `delete` never reaches the
internal delete-own-value panic, and deleting an absent value returns
the treap unchanged. -/
theorem claim_C6 {T P : Type} [LinearOrder T] [LinearOrder P] (t : Treap T P) (v : T)
    (h : Treap.Reachable t) :
    (∃ t', t.delete v = some t') ∧ (t.get v = none → t.delete v = some t) := by
  obtain ⟨hb, hh⟩ := Treap.reachable_inv h
  obtain ⟨t', heq, _, _, _, hcase⟩ := Treap.tdelete_spec t v hb hh
  refine ⟨⟨t', heq⟩, ?_⟩
  intro hget
  have hvk : v ∉ t.root.keys := (Treap.tget_eq_none_iff t hb v).mp hget
  rcases hcase with ⟨_, rfl⟩ | ⟨x, hxv, hxe, _⟩
  · exact heq
  · exfalso
    apply hvk
    rw [TreapNode.mem_keys]
    exact ⟨x, by rw [hxe]; exact Multiset.mem_cons_self x _, hxv⟩

/-- C6 witness. -/
theorem claim_C6_witness :
    (∃ t', ((Treap.new : Treap ℕ ℤ).insert ⟨2, 0⟩).delete 5 = some t') ∧
    (((Treap.new : Treap ℕ ℤ).insert ⟨2, 0⟩).get 5 = none →
      ((Treap.new : Treap ℕ ℤ).insert ⟨2, 0⟩).delete 5
        = some ((Treap.new : Treap ℕ ℤ).insert ⟨2, 0⟩)) :=
  claim_C6 _ 5 (Treap.Reachable.insert ⟨2, 0⟩ Treap.Reachable.new)

/-- C7: on any reachable treap, `get_max` returns nothing exactly on the
empty treap, and otherwise returns an element whose priority dominates
every stored element's priority. -/
theorem claim_C7 {T P : Type} [LinearOrder T] [LinearOrder P] (t : Treap T P)
    (h : Treap.Reachable t) :
    (t.root = TreapNode.leaf → t.get_max = none) ∧
    (t.root ≠ TreapNode.leaf →
      ∃ m, t.get_max = some m ∧ ∀ x ∈ t.root.elems, x.priority ≤ m.priority) := by
  obtain ⟨hb, hh⟩ := Treap.reachable_inv h
  obtain ⟨rt, sz⟩ := t
  cases rt with
  | leaf =>
    refine ⟨fun _ => rfl, ?_⟩
    intro hne
    exact absurd rfl hne
  | node e l r =>
    refine ⟨fun hleaf => absurd hleaf (by simp), ?_⟩
    intro _
    refine ⟨e, Treap.get_max_node e l r sz, ?_⟩
    intro x hx
    exact TreapNode.isHeap_root_le hh x hx

/-- C7 witness. -/
theorem claim_C7_witness :
    (((Treap.new : Treap ℕ ℤ).insert ⟨5, 3⟩).root = TreapNode.leaf →
      ((Treap.new : Treap ℕ ℤ).insert ⟨5, 3⟩).get_max = none) ∧
    (((Treap.new : Treap ℕ ℤ).insert ⟨5, 3⟩).root ≠ TreapNode.leaf →
      ∃ m, ((Treap.new : Treap ℕ ℤ).insert ⟨5, 3⟩).get_max = some m ∧
        ∀ x ∈ ((Treap.new : Treap ℕ ℤ).insert ⟨5, 3⟩).root.elems,
          x.priority ≤ m.priority) :=
  claim_C7 _ (Treap.Reachable.insert ⟨5, 3⟩ Treap.Reachable.new)

/-- C8: construction panics exactly on capacity 0; any capacity at least
1 yields an estimator with an empty treap and threshold 1.  (A failed
construction returns no state at all, so no existing instance can be
affected.) -/
theorem claim_C8 (sz : Nat) :
    (sz < 1 → (CountUnique.new sz : Option (CountUnique ℕ)) = none) ∧
    (1 ≤ sz → (CountUnique.new sz : Option (CountUnique ℕ))
      = some ⟨Treap.new, sz, 1⟩) := by
  constructor
  · intro h
    simp only [CountUnique.new, if_pos h]
  · intro h
    simp only [CountUnique.new, if_neg (not_lt.mpr h)]

/-- C8 witness. -/
theorem claim_C8_witness :
    (CountUnique.new 0 : Option (CountUnique ℕ)) = none ∧
    (CountUnique.new 3 : Option (CountUnique ℕ)) = some ⟨Treap.new, 3, 1⟩ :=
  ⟨(claim_C8 0).1 (by decide), (claim_C8 3).2 (by decide)⟩

/-- C9: with capacity 11 and the fixed 12-token / 11-distinct-word
sentence, whatever the random draws in [0, 1), every distinct token is
admitted (the reservoir ends holding exactly the 11 distinct words),
`p` stays 1, and the estimate is exactly 11. -/
theorem claim_C9 (us : List ℚ) (hlen : us.length = 12)
    (hus : ∀ u ∈ us, 0 ≤ u ∧ u < 1) :
    ∃ s₀ s' : CountUnique ℕ,
      CountUnique.new 11 = some s₀ ∧
      s₀.run (cvmSentence.zip us) = some s' ∧
      s'.p = 1 ∧
      s'.treap.root.keys = Multiset.range 11 ∧
      s'.treap.size = 11 ∧
      s'.estimate = some 11 := by
  obtain ⟨s', hrun, hp', hm', hb', hh', hsz', hkD', hpres'⟩ :=
    CountUnique.run_p_one (Multiset.range 11) cvmSentence us
      (⟨Treap.new, 11, 1⟩ : CountUnique ℕ)
      (by decide) (by rw [hlen]; rfl) (fun u hu => (hus u hu).2)
      rfl (by simp [Multiset.card_range]) rfl rfl rfl
      (by simp [TreapNode.keys, TreapNode.elems])
  have hge : Multiset.range 11 ≤ s'.treap.root.keys := by
    rw [Multiset.le_iff_count]
    intro a
    by_cases ha : a ∈ Multiset.range 11
    · have ha' : a ∈ cvmSentence := by
        have hall : ∀ b ∈ Multiset.range 11, b ∈ cvmSentence := by decide
        exact hall a ha
      have hmem : a ∈ s'.treap.root.keys := hpres' a (Or.inr ha')
      rw [Multiset.count_eq_one_of_mem (Multiset.nodup_range 11) ha]
      exact Multiset.one_le_count_iff_mem.mpr hmem
    · rw [Multiset.count_eq_zero.mpr ha]
      exact Nat.zero_le _
  have hkeys_eq : s'.treap.root.keys = Multiset.range 11 := le_antisymm hkD' hge
  have hsize11 : s'.treap.size = 11 := by
    rw [hsz']
    have hck : Multiset.card s'.treap.root.keys = Multiset.card s'.treap.root.elems := by
      rw [TreapNode.keys]
      exact Multiset.card_map _ _
    rw [← hck, hkeys_eq, Multiset.card_range]
  refine ⟨⟨Treap.new, 11, 1⟩, s', rfl, hrun, hp', hkeys_eq, hsize11, ?_⟩
  rw [CountUnique.estimate, hsize11, hp']
  norm_num

/-- C9 witness. -/
theorem claim_C9_witness :
    ∃ s₀ s' : CountUnique ℕ,
      CountUnique.new 11 = some s₀ ∧
      s₀.run (cvmSentence.zip (List.replicate 12 0)) = some s' ∧
      s'.p = 1 ∧
      s'.treap.root.keys = Multiset.range 11 ∧
      s'.treap.size = 11 ∧
      s'.estimate = some 11 :=
  claim_C9 (List.replicate 12 0) (by decide)
    (fun u hu => by
      rw [List.eq_of_mem_replicate hu]
      norm_num)

/-- C10: `add_token` never panics: from any reachable estimator state,
with any token and any draw in [0, 1), the call returns a state (in
particular, whenever the full-reservoir branch is reached the treap is
non-empty and the `get_max` unwrap succeeds). -/
theorem claim_C10 {T : Type} [LinearOrder T] (s : CountUnique T) (tok : T) (u : ℚ)
    (hr : CountUnique.Reachable s) (hu0 : 0 ≤ u) (hu1 : u < 1) :
    (s.add_token tok u).isSome = true := by
  obtain ⟨s', heq, _, _, _⟩ :=
    CountUnique.add_token_spec s tok u (CountUnique.est_reachable_inv hr)
  rw [heq]
  rfl

/-- C10 witness. -/
theorem claim_C10_witness :
    ((⟨Treap.new, 1, 1⟩ : CountUnique ℕ).add_token 0 0).isSome = true := by
  have hr : CountUnique.Reachable (⟨Treap.new, 1, 1⟩ : CountUnique ℕ) :=
    CountUnique.Reachable.new
      (show (CountUnique.new 1 : Option (CountUnique ℕ)) = some ⟨Treap.new, 1, 1⟩ from rfl)
  exact claim_C10 _ 0 0 hr le_rfl (by norm_num)
